import Mathlib

/-!
Verification development for the AutoQuote GB/T 7714 citation library
(`gbt7714/models.py`, `gbt7714/formatters.py`, `gbt7714/parser.py`).

The Python code is shallowly embedded over `List Char` / `String`.
Modelling conventions, stated once:
* Python `str.strip` / `str.split()` whitespace is modelled by the six
  ASCII whitespace characters (space, tab, LF, CR, VT, FF).
* Python's per-character `str.upper()` / `str.lower()` / `str.capitalize()`
  are modelled by ASCII case mapping; characters outside `a-z` / `A-Z`
  (in particular all CJK characters) are fixed points, exactly as the
  code relies on for its Latin-vs-CJK heuristic.
* Python `re` patterns are translated pattern by pattern into explicit
  scanning functions, reproducing leftmost-match order, laziness and the
  relevant backtracking of each concrete pattern used by the source.
* Fallible Python code (raising `AttributeError` / `IndexError`) is
  modelled with `Except PyErr`; parse failures (`ValueError`) with
  `Except String`.
-/

/-- Errors a formatter call can raise at runtime. -/
inductive PyErr where
  | attributeError
  | indexError
deriving DecidableEq

/-- The six ASCII whitespace characters recognised by `str.strip()` et al. -/
def isSpaceC (c : Char) : Bool :=
  c = ' ' || c = '\t' || c = '\n' || c = '\r' || c.toNat = 11 || c.toNat = 12

/-- ASCII model of Python's single-character `str.upper()`. -/
def upperChar (c : Char) : Char :=
  if 97 ≤ c.toNat ∧ c.toNat ≤ 122 then Char.ofNat (c.toNat - 32) else c

/-- ASCII model of Python's single-character `str.lower()`. -/
def lowerChar (c : Char) : Char :=
  if 65 ≤ c.toNat ∧ c.toNat ≤ 90 then Char.ofNat (c.toNat + 32) else c

/-- The test `'A' <= c.upper() <= 'Z'` used by `Author._is_latin` and
`format_authors`. -/
def isLatinChar (c : Char) : Bool :=
  65 ≤ (upperChar c).toNat && (upperChar c).toNat ≤ 90

/-- ASCII digit. -/
def isDigitC (c : Char) : Bool := 48 ≤ c.toNat && c.toNat ≤ 57

/-- ASCII letter. -/
def isAlphaC (c : Char) : Bool :=
  (65 ≤ c.toNat && c.toNat ≤ 90) || (97 ≤ c.toNat && c.toNat ≤ 122)

/-- Fragment of Python's (Unicode) `\w` class that the inputs of this
library can contain: ASCII alphanumerics, underscore, and CJK unified
ideographs.  The en dash U+2013 and ASCII punctuation are non-word. -/
def isWordC (c : Char) : Bool :=
  isAlphaC c || isDigitC c || c = '_' ||
    (0x4E00 ≤ c.toNat && c.toNat ≤ 0x9FFF)

/-- `l.strip()` on the right only. -/
def rstripBy (p : Char → Bool) (l : List Char) : List Char :=
  (l.reverse.dropWhile p).reverse

/-- Python `str.strip()` (both ends, whitespace). -/
def pyStrip (l : List Char) : List Char :=
  rstripBy isSpaceC (l.dropWhile isSpaceC)

/-- Python `str.strip(chars)` for a single character set given as predicate. -/
def pyStripBy (p : Char → Bool) (l : List Char) : List Char :=
  rstripBy p (l.dropWhile p)

/-- Python `str.lstrip()`. -/
def pyLstrip (l : List Char) : List Char := l.dropWhile isSpaceC

def listStartsWith (pre l : List Char) : Bool :=
  l.take pre.length = pre

def endsWithC (c : Char) (l : List Char) : Bool :=
  match l.getLast? with
  | some d => d = c
  | none => false

/-- Substring test (`pat in s`). -/
def containsSub (pat : List Char) : List Char → Bool
  | [] => pat = []
  | c :: r => listStartsWith pat (c :: r) || containsSub pat r

/-- `s.split(sep, 1)`: the text before and after the first occurrence of
`sep`, or `none` when `sep` does not occur. -/
def splitFirstSub (pat : List Char) : List Char → Option (List Char × List Char)
  | [] => if pat = [] then some ([], []) else none
  | c :: r =>
    if listStartsWith pat (c :: r) then some ([], (c :: r).drop pat.length)
    else match splitFirstSub pat r with
      | some (a, b) => some (c :: a, b)
      | none => none

/-- The suffix after the first occurrence of `pat` (`[]` if absent). -/
def afterFirstSub (pat l : List Char) : List Char :=
  match splitFirstSub pat l with
  | some (_, b) => b
  | none => []

/-- Python `'-'.replace('-', ' ')` specialised: map one char to another. -/
def replaceChar (a b : Char) (l : List Char) : List Char :=
  l.map fun c => if c = a then b else c

/-- Whitespace-run split, Python `str.split()` (accumulator pass). -/
def splitWSGo : List Char → List Char → List (List Char)
  | [], acc => if acc = [] then [] else [acc.reverse]
  | c :: r, acc =>
    if isSpaceC c then
      if acc = [] then splitWSGo r [] else acc.reverse :: splitWSGo r []
    else splitWSGo r (c :: acc)

def pySplitWS (l : List Char) : List (List Char) := splitWSGo l []

/-- Split at every occurrence of any character satisfying `p`
(Python `re.split` over a single-character alternation). -/
def splitOnCharsGo (p : Char → Bool) : List Char → List Char → List (List Char)
  | [], acc => [acc.reverse]
  | c :: r, acc =>
    if p c then acc.reverse :: splitOnCharsGo p r []
    else splitOnCharsGo p r (c :: acc)

def splitOnChars (p : Char → Bool) (l : List Char) : List (List Char) :=
  splitOnCharsGo p l []

/-- `' '.join` on char lists. -/
def joinWith (sep : List Char) : List (List Char) → List Char
  | [] => []
  | [x] => x
  | x :: y :: r => x ++ sep ++ joinWith sep (y :: r)

/-- Non-overlapping split on a fixed non-empty separator
(Python `str.split(sep)`). -/
def splitSubGo (s0 : Char) (srest : List Char) : List Char → List Char → List (List Char)
  | [], acc => [acc.reverse]
  | c :: r, acc =>
    if c = s0 && listStartsWith srest r then
      acc.reverse :: splitSubGo s0 srest (r.drop srest.length) []
    else splitSubGo s0 srest r (c :: acc)
termination_by l _ => l.length
decreasing_by
  · simp only [List.length_cons]
    have := List.length_drop srest.length r
    omega
  · simp [List.length_cons]

def splitSub (sep : List Char) (l : List Char) : List (List Char) :=
  match sep with
  | [] => [l]
  | s0 :: srest => splitSubGo s0 srest l []

/-- Value of a list of ASCII digit characters. -/
def digitsVal : List Char → Nat
  | [] => 0
  | c :: r => digitsVal r + (c.toNat - 48) * 10 ^ r.length

/-- Python truthiness of an optional string. -/
def pyTruthy : Option String → Bool
  | none => false
  | some s => s ≠ ""

/-- `a or b` on optional strings (empty string is falsy). -/
def pyOrOpt (a b : Option String) : Option String :=
  match a with
  | some s => if s = "" then b else some s
  | none => b

/-- `a or default` collapsing an optional string to a string. -/
def pyOrStr (a : Option String) (d : String) : String :=
  match a with
  | some s => if s = "" then d else s
  | none => d

/-! ## Data model (`gbt7714/models.py`) -/

structure Author where
  last : String
  first : Option String
  is_organization : Bool
deriving DecidableEq

/-- `Author._is_latin`: any character of `last` whose uppercase form is
an ASCII capital letter. -/
def Author._is_latin (a : Author) : Bool :=
  a.last.data.any isLatinChar

/-- `capitalize()`: first character uppercased, the rest lowercased. -/
def pyCapitalize : List Char → List Char
  | [] => []
  | c :: r => upperChar c :: r.map lowerChar

/-- The normalised Latin surname built by `format_name`:
split `last` on spaces/hyphens, capitalize each token, rejoin with spaces. -/
def normSurname (last : String) : List Char :=
  joinWith [' '] ((pySplitWS (replaceChar '-' ' ' last.data)).map pyCapitalize)

/-- The initial letters extracted by `format_name` from `first`:
first character of each space/hyphen token, uppercased. -/
def normInitials (first : String) : List Char :=
  joinWith [' ']
    (((pySplitWS (replaceChar '-' ' ' first.data)).filterMap fun t =>
        match t with
        | [] => none
        | c :: _ => some (upperChar c)).map fun c => [c])

/-- Whether `format_name`'s Latin branch found any initials. -/
def hasInitials (first : String) : Bool :=
  ((pySplitWS (replaceChar '-' ' ' first.data)).filterMap fun t =>
      match t with
      | [] => none
      | c :: _ => some (upperChar c)) ≠ []

/-- `Author.format_name` (`models.py`). -/
def Author.format_name (a : Author) : String :=
  if a.is_organization then a.last
  else if ¬ a._is_latin then
    match a.first with
    | some f => if f ≠ "" then a.last ++ f else a.last
    | none => a.last
  else
    let surname := normSurname a.last
    match a.first with
    | none => ⟨surname⟩
    | some f =>
      if f = "" then ⟨surname⟩
      else if hasInitials f then ⟨surname ++ [' '] ++ normInitials f⟩
      else ⟨surname⟩

structure JournalArticle where
  title : String
  authors : List Author
  year : Option Int
  language : String
  journal : String
  volume : Option String
  issue : Option String
  pages : Option String
  doi : Option String
deriving DecidableEq

structure Book where
  title : String
  authors : List Author
  year : Option Int
  language : String
  publisher : Option String
  place : Option String
  edition : Option String
  isbn : Option String
deriving DecidableEq

/-- `datetime.date`, restricted to the fields the code uses. -/
structure PyDate where
  year : Nat
  month : Nat
  day : Nat
deriving DecidableEq

structure WebResource where
  title : String
  authors : List Author
  year : Option Int
  language : String
  url : String
  date_published : Option PyDate
  date_accessed : Option PyDate
  org : Option String
deriving DecidableEq

structure ConferencePaper where
  title : String
  authors : List Author
  year : Option Int
  language : String
  conference : String
  location : Option String
  pages : Option String
  publisher : Option String
  doi : Option String
deriving DecidableEq

structure BookChapter where
  title : String
  authors : List Author
  year : Option Int
  language : String
  book_title : String
  place : Option String
  publisher : Option String
  pages : Option String
deriving DecidableEq

/-- The closed set of entry variants `format_reference` dispatches over. -/
inductive Entry where
  | journal (a : JournalArticle)
  | book (b : Book)
  | chapter (c : BookChapter)
  | web (w : WebResource)
  | conference (c : ConferencePaper)
deriving DecidableEq

def Entry.title : Entry → String
  | .journal a => a.title
  | .book b => b.title
  | .chapter c => c.title
  | .web w => w.title
  | .conference c => c.title

/-! ## Formatters (`gbt7714/formatters.py`) -/

/-- `format_authors` (`MAX_AUTHORS = 3`). -/
def format_authors (authors : List Author) (_language : String) : String :=
  if authors = [] then "[无作者]"
  else
    let formatted := authors.map Author.format_name
    if authors.length > 3 then
      let main := joinWith [',', ' '] ((formatted.take 3).map String.data)
      let has_latin := (formatted.take 3).any fun name => name.data.any isLatinChar
      ⟨main⟩ ++ ", " ++ (if has_latin then "et al." else "等")
    else ⟨joinWith [',', ' '] (formatted.map String.data)⟩

/-- `sanitize_doi`.  The prefix test is case-insensitive
(`doi.lower().startswith(...)`) but the subsequent
`doi.split('doi.org/', 1)[1]` is case-sensitive: when the value contains
no lowercase `doi.org/`, the `[1]` raises `IndexError`. -/
def sanitize_doi (doi : Option String) : Except PyErr (Option String) :=
  match doi with
  | none => .ok none
  | some s =>
    if s = "" then .ok none
    else
      let t := pyStrip s.data
      if listStartsWith "https://doi.org/".data (t.map lowerChar) then
        match splitFirstSub "doi.org/".data t with
        | some (_, after) => .ok (some ⟨after⟩)
        | none => .error .indexError
      else .ok (some ⟨t⟩)

/-- `a.year or 'n.d.'` rendered into an f-string (0 is falsy like `None`). -/
def pyYearStr (y : Option Int) : String :=
  match y with
  | none => "n.d."
  | some v => if v = 0 then "n.d." else toString v

/-- Author segment with a trailing period appended unless already present. -/
def authorSeg (authors : List Author) (language : String) : String :=
  let s := format_authors authors language
  if endsWithC '.' s.data then s else s ++ "."

/-- `format_journal`.  Raises only through `sanitize_doi`. -/
def format_journal (a : JournalArticle) : Except PyErr String :=
  let year := pyYearStr a.year
  let ref0 := authorSeg a.authors a.language ++ " " ++ a.title ++ "[J]. "
      ++ a.journal ++ ", " ++ year
  let ref1 :=
    if pyTruthy a.volume ∧ pyTruthy a.issue then
      ref0 ++ ", " ++ a.volume.getD "" ++ "(" ++ a.issue.getD "" ++ ")"
    else if pyTruthy a.volume then ref0 ++ ", " ++ a.volume.getD ""
    else if pyTruthy a.issue then ref0 ++ ", (" ++ a.issue.getD "" ++ ")"
    else ref0
  let ref2 := if pyTruthy a.pages then ref1 ++ ": " ++ a.pages.getD "" else ref1
  if pyTruthy a.doi then
    match sanitize_doi a.doi with
    | .error e => .error e
    | .ok d => .ok (if pyTruthy d then ref2 ++ ". DOI: " ++ d.getD "" else ref2)
  else .ok ref2

/-- `format_book` (total). -/
def format_book (b : Book) : String :=
  let year := pyYearStr b.year
  let edition :=
    if pyTruthy b.edition then
      if b.language = "zh" then b.edition.getD "" ++ "版"
      else b.edition.getD "" ++ " ed."
    else ""
  let place_pub :=
    if pyTruthy b.place ∧ pyTruthy b.publisher then
      b.place.getD "" ++ ": " ++ b.publisher.getD ""
    else pyOrStr b.publisher (pyOrStr b.place "")
  let ref0 := authorSeg b.authors b.language ++ " " ++ b.title ++ "[M]."
  let ref1 :=
    if edition ≠ "" then
      if ¬ endsWithC '.' edition.data then ref0 ++ " " ++ edition ++ "."
      else ref0 ++ " " ++ edition
    else ref0
  let ref2 :=
    if place_pub ≠ "" then ref1 ++ " " ++ place_pub ++ ", " ++ year ++ "."
    else ref1 ++ " " ++ year ++ "."
  ⟨pyStrip ref2.data⟩

/-- `format_book_chapter` (total). -/
def format_book_chapter (ch : BookChapter) : String :=
  let year := pyYearStr ch.year
  let ref0 := authorSeg ch.authors ch.language ++ " " ++ ch.title ++ "[M] // "
      ++ ch.book_title ++ "."
  let place_pub :=
    if pyTruthy ch.place ∨ pyTruthy ch.publisher then
      if pyTruthy ch.place ∧ pyTruthy ch.publisher then
        ch.place.getD "" ++ ": " ++ ch.publisher.getD ""
      else pyOrStr ch.publisher (pyOrStr ch.place "")
    else ""
  let ref1 :=
    if place_pub ≠ "" then ref0 ++ " " ++ place_pub ++ ", " ++ year
    else ref0 ++ " " ++ year
  let ref2 := if pyTruthy ch.pages then ref1 ++ ": " ++ ch.pages.getD "" else ref1
  if ¬ endsWithC '.' ref2.data then ref2 ++ "." else ref2

def pad2 (n : Nat) : String := if n < 10 then "0" ++ toString n else toString n

/-- `format_date` (`%Y-%m-%d`; glibc `%Y` does not pad). -/
def format_date (d : Option PyDate) : String :=
  match d with
  | none => ""
  | some d => toString d.year ++ "-" ++ pad2 d.month ++ "-" ++ pad2 d.day

/-- `format_web` (total). -/
def format_web (w : WebResource) : String :=
  let pub_date := format_date w.date_published
  let acc_date := format_date w.date_accessed
  let ref0 := authorSeg w.authors w.language ++ " " ++ w.title ++ "[EB/OL]."
  let ref1 := if pub_date ≠ "" then ref0 ++ " (" ++ pub_date ++ ")" else ref0
  let ref2 := if acc_date ≠ "" then ref1 ++ " [" ++ acc_date ++ "]" else ref1
  ref2 ++ ". " ++ w.url ++ "."

/-- `format_conference`.  After building the author/year segments the
source evaluates `c.volume` (and `c.issue`); `ConferencePaper` defines no
such attribute, so every call raises `AttributeError` at that line. -/
def format_conference (_c : ConferencePaper) : Except PyErr String :=
  .error .attributeError

/-- `format_reference`: `isinstance` dispatch over the five variants. -/
def format_reference (e : Entry) : Except PyErr String :=
  match e with
  | .journal a => format_journal a
  | .book b => .ok (format_book b)
  | .chapter c => .ok (format_book_chapter c)
  | .web w => .ok (format_web w)
  | .conference c => format_conference c

/-- Result extraction helper for stating concrete evaluations. -/
def exceptOkD : Except PyErr String → String
  | .ok s => s
  | .error _ => ""

/-! ## Parser (`gbt7714/parser.py`) — BibTeX part -/

def lbrace : Char := Char.ofNat 123
def rbrace : Char := Char.ofNat 125

/-- One matched entry-type marker of `_TYPE_PAT`. -/
inductive Marker where
  | J | M | EB | DB | C
deriving DecidableEq

/-- Alternation `\[(J|M|EB/OL|DB/OL|C)\]` tried at one position. -/
def markerAt (l : List Char) : Option Marker :=
  if listStartsWith "[J]".data l then some .J
  else if listStartsWith "[M]".data l then some .M
  else if listStartsWith "[EB/OL]".data l then some .EB
  else if listStartsWith "[DB/OL]".data l then some .DB
  else if listStartsWith "[C]".data l then some .C
  else none

/-- `_TYPE_PAT.search`: leftmost marker occurrence. -/
def findMarker : List Char → Option Marker
  | [] => none
  | c :: r =>
    match markerAt (c :: r) with
    | some m => some m
    | none => findMarker r

/-- The character class of `^[A-Z0-9&\-_. ]+$` (organization heuristic). -/
def isOrgChar (c : Char) : Bool :=
  (65 ≤ c.toNat && c.toNat ≤ 90) || isDigitC c || c = '&' || c = '-' ||
    c = '_' || c = '.' || c = ' '

/-- `_split_authors`. -/
def _split_authors (segment : List Char) : List Author :=
  let seg := replaceChar '，' ',' segment
  let parts := ((splitOnChars (fun c => c = ',' || c = ';') seg).map pyStrip).filter
    (· ≠ [])
  (parts.filter fun p =>
      ¬ (p.map lowerChar = "et al.".data ∨ p.map lowerChar = "et al".data ∨
         p.map lowerChar = "等".data)).map
    fun p => Author.mk ⟨p⟩ none (p ≠ [] && p.all isOrgChar)

/-- `_strip_braces`: strip whitespace, then commas, then whitespace; remove
one surrounding layer of braces or quotes if present; strip again. -/
def _strip_braces (value : List Char) : List Char :=
  let v := pyStrip (pyStripBy (· = ',') (pyStrip value))
  if (listStartsWith [lbrace] v ∧ endsWithC rbrace v) ∨
     (listStartsWith ['"'] v ∧ endsWithC '"' v) then
    pyStrip (v.drop 1).dropLast
  else v

/-- `buf.split('=', 1)` + key normalisation of one accumulated segment. -/
def segParse (buf : List Char) : Option (List Char × List Char) :=
  match splitFirstSub ['='] buf with
  | some (k, v) => some ((pyStrip k).map lowerChar, _strip_braces v)
  | none => none

def dictInsert (k v : List Char) :
    List (List Char × List Char) → List (List Char × List Char)
  | [] => [(k, v)]
  | (k0, v0) :: r => if k0 = k then (k, v) :: r else (k0, v0) :: dictInsert k v r

def dictGet? (k : List Char) : List (List Char × List Char) → Option (List Char)
  | [] => none
  | (k0, v0) :: r => if k0 = k then some v0 else dictGet? k r

def dictGetD (k : List Char) (fields : List (List Char × List Char))
    (d : List Char) : List Char :=
  (dictGet? k fields).getD d

/-- The brace-depth field scanner of `_parse_bibtex`: accumulate into `buf`,
`depth += 1` on `{`, `depth = max(0, depth-1)` on `}` (Nat subtraction),
flush on a comma at depth 0 when the buffer contains `=`. -/
def bibtexFieldsGo : List Char → List Char → Nat →
    List (List Char × List Char) → List (List Char × List Char)
  | [], buf, _, fields =>
    if pyStrip buf ≠ [] ∧ containsSub ['='] buf then
      match segParse buf with
      | some (k, v) => dictInsert k v fields
      | none => fields
    else fields
  | ch :: rest, buf, depth, fields =>
    let depth1 := if ch = lbrace then depth + 1
      else if ch = rbrace then depth - 1 else depth
    if ch = ',' ∧ depth1 = 0 then
      let fields1 :=
        if containsSub ['='] buf then
          match segParse buf with
          | some (k, v) => dictInsert k v fields
          | none => fields
        else fields
      bibtexFieldsGo rest [] depth1 fields1
    else bibtexFieldsGo rest (buf ++ [ch]) depth1 fields

def bibtexFields (body : List Char) : List (List Char × List Char) :=
  bibtexFieldsGo body [] 0 []

/-- `_parse_bibtex_authors`. -/
def _parse_bibtex_authors (author_field : List Char) : List Author :=
  let parts := ((splitSub " and ".data (replaceChar '\n' ' ' author_field)).map
    pyStrip).filter (· ≠ [])
  parts.map fun p =>
    match splitFirstSub [','] p with
    | some (last, first) =>
      let firstS := pyStrip first
      Author.mk ⟨pyStrip last⟩ (if firstS = [] then none else some ⟨firstS⟩) false
    | none =>
      match pySplitWS p with
      | [] => Author.mk ⟨p⟩ none false
      | [t] => Author.mk ⟨t⟩ none false
      | t :: ts =>
        Author.mk ⟨((t :: ts).getLast?).getD []⟩
          (some ⟨joinWith [' '] ((t :: ts).dropLast)⟩) false

/-- First run of four consecutive digits (`re.findall(r'\d{4}', s)[0]`). -/
def firstFourDigits : List Char → Option (List Char)
  | [] => none
  | c :: r =>
    if 4 ≤ (c :: r).length ∧ ((c :: r).take 4).all isDigitC then
      some ((c :: r).take 4)
    else firstFourDigits r

/-- Head `@([A-Za-z]+)\s*\{\s*([^,]+)\s*,(.*)\}\s*$` of a BibTeX entry
(DOTALL): entry type and raw inner body. -/
def bibtexTop (text : List Char) : Option (List Char × List Char) :=
  match text with
  | [] => none
  | a :: r =>
    if a = '@' then
      let typ := r.takeWhile isAlphaC
      if typ = [] then none
      else
        match (r.drop typ.length).dropWhile isSpaceC with
        | [] => none
        | c :: r2 =>
          if c = lbrace then
            match splitFirstSub [','] r2 with
            | some (key, r3) =>
              if key = [] then none
              else
                match (r3.reverse.dropWhile isSpaceC : List Char) with
                | d :: rest => if d = rbrace then some (typ, rest.reverse) else none
                | [] => none
            | none => none
          else none
    else none

def pyOrOptL (a b : Option (List Char)) : Option (List Char) :=
  match a with
  | some s => if s = [] then b else some s
  | none => b

/-- `x or ''` on an optional char list. -/
def pyOrEmpty (a : Option (List Char)) : List Char :=
  match a with
  | some s => if s = [] then [] else s
  | none => []

/-- `_parse_bibtex`. -/
def _parse_bibtex (raw : String) : Except String Entry :=
  let text := pyStrip raw.data
  match bibtexTop text with
  | none => .error "BibTeX 格式不正确"
  | some (typRaw, bodyRaw) =>
    let entry_type := typRaw.map lowerChar
    let fields := bibtexFields (pyStrip bodyRaw)
    let title : String := ⟨pyStrip (dictGetD "title".data fields [])⟩
    let authors_field := dictGetD "author".data fields []
    let authors :=
      if authors_field ≠ [] then _parse_bibtex_authors authors_field else []
    let year : Option Int :=
      match dictGet? "year".data fields with
      | some yv => (firstFourDigits yv).map fun d => (digitsVal d : Int)
      | none => none
    if entry_type = "article".data then
      let journal : List Char := pyOrEmpty (pyOrOptL (dictGet? "journal".data fields)
        (dictGet? "journaltitle".data fields))
      .ok (.journal ⟨title, authors, year, "zh", ⟨journal⟩,
        (dictGet? "volume".data fields).map (⟨·⟩),
        (pyOrOptL (dictGet? "number".data fields)
          (dictGet? "issue".data fields)).map (⟨·⟩),
        (dictGet? "pages".data fields).map (⟨·⟩),
        (dictGet? "doi".data fields).map (⟨·⟩)⟩)
    else if entry_type = "book".data then
      .ok (.book ⟨title, authors, year, "zh",
        (dictGet? "publisher".data fields).map (⟨·⟩),
        (dictGet? "address".data fields).map (⟨·⟩),
        (dictGet? "edition".data fields).map (⟨·⟩), none⟩)
    else if entry_type = "inproceedings".data ∨ entry_type = "conference".data then
      let conf : List Char := pyOrEmpty (pyOrOptL (dictGet? "booktitle".data fields)
        (dictGet? "conference".data fields))
      .ok (.conference ⟨title, authors, year, "zh", ⟨conf⟩,
        (dictGet? "address".data fields).map (⟨·⟩),
        (dictGet? "pages".data fields).map (⟨·⟩),
        (dictGet? "publisher".data fields).map (⟨·⟩),
        (dictGet? "doi".data fields).map (⟨·⟩)⟩)
    else
      .ok (.web ⟨title, authors, year, "zh",
        ⟨dictGetD "url".data fields []⟩, none, none, none⟩)

/-! ## Parser — GB/T marker grammar

Regex notes for the translations below (Python `re`, no DOTALL here):
`.` never matches a newline; `\s*` is greedy and gives characters back one
at a time on backtracking; lazy groups (`.+?`) enumerate end positions
from left to right. -/

/-- `(?P<rest>.+)$`-style: candidate ending of `\s*(?P<rest>.+)$`:
the non-newline run must be the whole remainder (`$` also matches just
before one final newline). -/
def rmCore (cand : List Char) : Option (List Char) :=
  let X := cand.takeWhile (· ≠ '\n')
  if X ≠ [] ∧ (cand.drop X.length = [] ∨ cand.drop X.length = ['\n']) then some X
  else none

def rmGo (u : List Char) : Nat → Option (List Char)
  | 0 => rmCore u
  | k + 1 =>
    match rmCore (u.drop (k + 1)) with
    | some X => some X
    | none => rmGo u k

/-- `\s*(?P<rest>.+)$` after the author period: greedy whitespace with
one-character giveback. -/
def restMatch (u : List Char) : Option (List Char) :=
  rmGo u (u.takeWhile isSpaceC).length

/-- `re.search(r"^(?P<authors>.+?)\.\s*(?P<rest>.+)$", text)`:
lazy scan for the first usable period. -/
def preTitleGo : List Char → List Char → Option (List Char × List Char)
  | _, [] => none
  | acc, c :: rs =>
    if c = '\n' then none
    else if c = '.' ∧ acc ≠ [] then
      match restMatch rs with
      | some rest => some (acc.reverse, rest)
      | none => preTitleGo (c :: acc) rs
    else preTitleGo (c :: acc) rs

def preTitle (text : List Char) : Option (List Char × List Char) :=
  preTitleGo [] text

/-- `\s*(?P<tail>.+)` (no `$`): non-newline run after greedy whitespace,
with giveback. -/
def tmCore (cand : List Char) : Option (List Char) :=
  let X := cand.takeWhile (· ≠ '\n')
  if X ≠ [] then some X else none

def tmGo (u : List Char) : Nat → Option (List Char)
  | 0 => tmCore u
  | k + 1 =>
    match tmCore (u.drop (k + 1)) with
    | some X => some X
    | none => tmGo u k

def tailMatch (u : List Char) : Option (List Char) :=
  tmGo u (u.takeWhile isSpaceC).length

/-- Continuation `\.?\s*(?P<tail>.+)` after a `[X]` marker: the optional
period is consumed greedily; if the tail then fails, the ungreedy
alternative matches the period itself as part of the tail. -/
def jCont (u : List Char) : Option (List Char) :=
  if u.head? = some '.' then
    match tailMatch u.tail with
    | some t => some t
    | none => some (u.takeWhile (· ≠ '\n'))
  else tailMatch u

/-- Continuation `\.?\s*//\s*(?P<rest>.+)` of the `[C]` grammar: when `u`
starts with a period the ungreedy alternative can never reach `//`, so a
single path suffices. -/
def cCont (u : List Char) : Option (List Char) :=
  let u1 := if u.head? = some '.' then u.tail else u
  let v := u1.dropWhile isSpaceC
  if listStartsWith "//".data v then tailMatch (v.drop 2) else none

/-- `re.search(rf"(?P<title>.+?)\[X\]" ++ continuation, rest)`: lazy title,
scanning marker occurrences left to right; a newline resets the reachable
title window; on continuation failure the title extends past the marker. -/
def markerScanGo (pat : List Char) (cont : List Char → Option (List Char)) :
    List Char → List Char → Option (List Char × List Char)
  | _, [] => none
  | acc, c :: rs =>
    if listStartsWith pat (c :: rs) ∧ acc ≠ [] then
      match cont ((c :: rs).drop pat.length) with
      | some t => some (acc.reverse, t)
      | none => markerScanGo pat cont (if c = '\n' then [] else c :: acc) rs
    else markerScanGo pat cont (if c = '\n' then [] else c :: acc) rs

/-- `re.search(r"DOI:\s*([^\s]+)", tail, re.IGNORECASE)`. -/
def doiScan : List Char → Option (List Char)
  | [] => none
  | c :: r =>
    if ((c :: r).take 4).map lowerChar = "doi:".data then
      let u := ((c :: r).drop 4).dropWhile isSpaceC
      let tok := u.takeWhile fun d => ¬ isSpaceC d
      if tok ≠ [] then some tok else doiScan r
    else doiScan r

/-- Character class `[0-9eE\-–]` of the journal pages pattern. -/
def isPagesChar (c : Char) : Bool :=
  isDigitC c || c = 'e' || c = 'E' || c = '-' || c.toNat = 0x2013

/-- `\b` between a last matched character and the following one. -/
def boundaryOk (lastC : Char) (next : Option Char) : Bool :=
  match next with
  | none => isWordC lastC
  | some c => isWordC lastC != isWordC c

/-- Greedy `+` with a trailing `\b`: longest non-empty prefix of the run
(passed reversed) whose end is a word boundary. -/
def pickRunRev : List Char → Option Char → Option (List Char)
  | [], _ => none
  | c :: rs, next =>
    if boundaryOk c next then some ((c :: rs).reverse)
    else pickRunRev rs (some c)

/-- Attempt of `:\s*([0-9eE\-–]+)\b` just after a colon.  `\s*` giveback
cannot help because the class contains no whitespace. -/
def pagesAt (u : List Char) : Option (List Char) :=
  let cand := u.dropWhile isSpaceC
  let run := cand.takeWhile isPagesChar
  pickRunRev run.reverse (cand.drop run.length).head?

/-- `re.search(r":\s*([0-9eE\-–]+)\b", tail)`: leftmost colon whose
attempt succeeds. -/
def pagesScan : List Char → Option (List Char)
  | [] => none
  | c :: r =>
    if c = ':' then
      match pagesAt r with
      | some p => some p
      | none => pagesScan r
    else pagesScan r

/-- Optional `(?:,\s*(?P<volissue>[^:\.]+))?` after the year digits; `\s*`
giveback can matter here because the class accepts whitespace. -/
def viGo (r : List Char) : Nat → Option (List Char)
  | 0 =>
    let g := r.takeWhile fun c => c ≠ ':' ∧ c ≠ '.'
    if g ≠ [] then some g else none
  | k + 1 =>
    let g := (r.drop (k + 1)).takeWhile fun c => c ≠ ':' ∧ c ≠ '.'
    if g ≠ [] then some g else viGo r k

def optVolissue : List Char → Option (List Char)
  | [] => none
  | c :: r => if c = ',' then viGo r (r.takeWhile isSpaceC).length else none

/-- `re.search(r"^(?P<journal>[^,\.]+),\s*(?P<year>\d{4})(?:,\s*(?P<volissue>[^:\.]+))?", tail)`
(anchored, so a single attempt). -/
def jMain (tl : List Char) : Option (List Char × Int × Option (List Char)) :=
  let j := tl.takeWhile fun c => c ≠ ',' ∧ c ≠ '.'
  if j = [] then none
  else
    match tl.drop j.length with
    | [] => none
    | c :: u =>
      if c = ',' then
        let w := u.dropWhile isSpaceC
        let d := w.take 4
        if d.length = 4 ∧ d.all isDigitC then
          some (j, (digitsVal d : Int), optVolissue (w.drop 4))
        else none
      else none

/-- `re.match(r"(?P<vol>[^()]+)\((?P<iss>[^)]+)\)", volissue)`. -/
def viMatch (s : List Char) : Option (List Char × List Char) :=
  let vol := s.takeWhile fun c => c ≠ '(' ∧ c ≠ ')'
  if vol = [] then none
  else
    match s.drop vol.length with
    | '(' :: r =>
      let iss := r.takeWhile (· ≠ ')')
      if iss ≠ [] ∧ (r.drop iss.length).head? = some ')' then some (vol, iss)
      else none
    | _ => none

/-- The `[J]` sub-grammar of `parse_reference`. -/
def jBranch (authors : List Author) (rest : List Char) : Except String Entry :=
  match markerScanGo "[J]".data jCont [] rest with
  | none => .error "期刊条目题名部分解析失败"
  | some (titleRaw, tl) =>
    let title : List Char := pyStrip titleRaw
    let doi := (doiScan tl).map (rstripBy (· = '.'))
    let pages := pagesScan tl
    match jMain tl with
    | some (j, yr, vi) =>
      let journal := pyStrip j
      let vp : Option (List Char) × Option (List Char) :=
        match vi with
        | some vs =>
          let s := pyStrip vs
          match viMatch s with
          | some (v, i) => (some (pyStrip v), some (pyStrip i))
          | none => (some s, none)
        | none => (none, none)
      .ok (.journal ⟨⟨title⟩, authors, some yr, "zh",
        (if journal = [] then "NA" else ⟨journal⟩),
        vp.1.map (⟨·⟩), vp.2.map (⟨·⟩), pages.map (⟨·⟩), doi.map (⟨·⟩)⟩)
    | none =>
      .ok (.journal ⟨⟨title⟩, authors, none, "zh", "NA",
        none, none, pages.map (⟨·⟩), doi.map (⟨·⟩)⟩)

/-- One attempt of `\s*(?P<publisher>[^,\.]+),\s*(?P<year>\d{4})` with the
whitespace split at `k`. -/
def mPubCore (rs : List Char) (k : Nat) : Option (List Char × Int) :=
  let cand := rs.drop k
  let pub := cand.takeWhile fun c => c ≠ ',' ∧ c ≠ '.'
  if pub = [] then none
  else
    match cand.drop pub.length with
    | ',' :: z0 =>
      let z := z0.dropWhile isSpaceC
      let d := z.take 4
      if d.length = 4 ∧ d.all isDigitC then some (pub, (digitsVal d : Int))
      else none
    | _ => none

def mPubGo (rs : List Char) : Nat → Option (List Char × Int)
  | 0 => mPubCore rs 0
  | k + 1 =>
    match mPubCore rs (k + 1) with
    | some x => some x
    | none => mPubGo rs k

def mPubCont (rs : List Char) : Option (List Char × Int) :=
  mPubGo rs (rs.takeWhile isSpaceC).length

/-- `re.search(r"(?P<place>[^:]+):\s*(?P<publisher>[^,\.]+),\s*(?P<year>\d{4})", tail)`:
iterate colons, the place group restarting after each failed colon. -/
def mPubScan : List Char → List Char → Option (List Char × List Char × Int)
  | _, [] => none
  | acc, c :: rs =>
    if c = ':' then
      if acc ≠ [] then
        match mPubCont rs with
        | some (pub, yr) => some (acc.reverse, pub, yr)
        | none => mPubScan [] rs
      else mPubScan [] rs
    else mPubScan (c :: acc) rs

/-- The `[M]` sub-grammar. -/
def mBranch (authors : List Author) (rest : List Char) : Except String Entry :=
  match markerScanGo "[M]".data jCont [] rest with
  | none => .error "图书题名解析失败"
  | some (titleRaw, tl) =>
    match mPubScan [] tl with
    | some (pl, pub, yr) =>
      .ok (.book ⟨⟨pyStrip titleRaw⟩, authors, some yr, "zh",
        some ⟨pyStrip pub⟩, some ⟨pyStrip pl⟩, none, none⟩)
    | none =>
      .ok (.book ⟨⟨pyStrip titleRaw⟩, authors, none, "zh", none, none, none, none⟩)

/-- `\d{4}-\d{2}-\d{2}` at the head of a list. -/
def dateAt (l : List Char) : Option (Nat × Nat × Nat) :=
  let d := l.take 10
  if d.length = 10 ∧ (d.take 4).all isDigitC ∧ d.get? 4 = some '-' ∧
      ((d.drop 5).take 2).all isDigitC ∧ d.get? 7 = some '-' ∧
      ((d.drop 8).take 2).all isDigitC then
    some (digitsVal (d.take 4), digitsVal ((d.drop 5).take 2),
      digitsVal ((d.drop 8).take 2))
  else none

/-- Leftmost `oc(\d{4}-\d{2}-\d{2})cc` occurrence for delimiters `oc`/`cc`. -/
def delimDateScan (oc cc : Char) : List Char → Option (Nat × Nat × Nat)
  | [] => none
  | c :: r =>
    if c = oc then
      match dateAt r with
      | some (y, m, d) =>
        if (r.drop 10).head? = some cc then some (y, m, d)
        else delimDateScan oc cc r
      | none => delimDateScan oc cc r
    else delimDateScan oc cc r

def isLeap (y : Nat) : Bool := (y % 4 = 0 && y % 100 ≠ 0) || y % 400 = 0

def daysInMonth (y m : Nat) : Nat :=
  if m = 2 then (if isLeap y then 29 else 28)
  else if m = 4 ∨ m = 6 ∨ m = 9 ∨ m = 11 then 30
  else 31

/-- `datetime.date(y, m, d)` validity (ValueError is caught and dropped). -/
def mkDate? (y m d : Nat) : Option PyDate :=
  if 1 ≤ y ∧ y ≤ 9999 ∧ 1 ≤ m ∧ m ≤ 12 ∧ 1 ≤ d ∧ d ≤ daysInMonth y m then
    some ⟨y, m, d⟩
  else none

/-- Attempt of `(https?://[^\s\.]+[^\s]*)` at one position. -/
def urlAt (l : List Char) : Option (List Char) :=
  if listStartsWith "http".data l then
    let u := l.drop 4
    let sch : Option (List Char × List Char) :=
      if listStartsWith "s://".data u then some ("https://".data, u.drop 4)
      else if listStartsWith "://".data u then some ("http://".data, u.drop 3)
      else none
    match sch with
    | some (scheme, after) =>
      let r1 := after.takeWhile fun d => ¬ isSpaceC d ∧ d ≠ '.'
      if r1 = [] then none
      else some (scheme ++ r1 ++ (after.drop r1.length).takeWhile fun d => ¬ isSpaceC d)
    | none => none
  else none

def urlScan : List Char → Option (List Char)
  | [] => none
  | c :: r =>
    match urlAt (c :: r) with
    | some u => some u
    | none => urlScan r

/-- The `[EB/OL]` / `[DB/OL]` sub-grammar (`mk` is the marker text). -/
def ebBranch (mk : List Char) (authors : List Author) (rest : List Char) :
    Except String Entry :=
  match markerScanGo ("[".data ++ mk ++ "]".data) jCont [] rest with
  | none => .error "电子资源题名解析失败"
  | some (titleRaw, tl) =>
    let pub_date := (delimDateScan '(' ')' tl).bind fun x => mkDate? x.1 x.2.1 x.2.2
    let acc_date := (delimDateScan '[' ']' tl).bind fun x => mkDate? x.1 x.2.1 x.2.2
    let url := (urlScan tl).map (rstripBy (· = '.'))
    .ok (.web ⟨⟨pyStrip titleRaw⟩, authors, none, "zh",
      ⟨pyOrEmpty url⟩, pub_date, acc_date, none⟩)

/-- One attempt of `\s*(?P<publisher>[^,]+),\s*(?P<year>\d{4})(?::\s*(?P<pages>[0-9\-–]+))?`. -/
def cPubCore (rs : List Char) (k : Nat) :
    Option (List Char × Int × Option (List Char)) :=
  let cand := rs.drop k
  let pub := cand.takeWhile (· ≠ ',')
  if pub = [] then none
  else
    match cand.drop pub.length with
    | ',' :: z0 =>
      let z := z0.dropWhile isSpaceC
      let d := z.take 4
      if d.length = 4 ∧ d.all isDigitC then
        let pages : Option (List Char) :=
          match z.drop 4 with
          | ':' :: p0 =>
            let pg := (p0.dropWhile isSpaceC).takeWhile fun c =>
              isDigitC c || c = '-' || c.toNat = 0x2013
            if pg ≠ [] then some pg else none
          | _ => none
        some (pub, (digitsVal d : Int), pages)
      else none
    | _ => none

def cPubGo (rs : List Char) : Nat → Option (List Char × Int × Option (List Char))
  | 0 => cPubCore rs 0
  | k + 1 =>
    match cPubCore rs (k + 1) with
    | some x => some x
    | none => cPubGo rs k

def cPubCont (rs : List Char) : Option (List Char × Int × Option (List Char)) :=
  cPubGo rs (rs.takeWhile isSpaceC).length

/-- `re.search(r"(?P<loc>[^:]+):\s*(?P<publisher>[^,]+),\s*(?P<year>\d{4})(?::\s*(?P<pages>[0-9\-–]+))?", pub_sec)`. -/
def cPubScan : List Char → List Char →
    Option (List Char × List Char × Int × Option (List Char))
  | _, [] => none
  | acc, c :: rs =>
    if c = ':' then
      if acc ≠ [] then
        match cPubCont rs with
        | some (pub, yr, pg) => some (acc.reverse, pub, yr, pg)
        | none => cPubScan [] rs
      else cPubScan [] rs
    else cPubScan (c :: acc) rs

/-- The `[C]` sub-grammar: requires `//` after the title marker, then
`conf = rest_tail.split('.')[0].strip()` and — the source's own quirk —
`pub_sec = rest_tail[len(conf):]` sliced with the length of the *stripped*
conference name. -/
def cBranch (authors : List Author) (rest : List Char) : Except String Entry :=
  match markerScanGo "[C]".data cCont [] rest with
  | none => .error "会议论文题名解析失败 (需要 // 分隔)"
  | some (titleRaw, restTail) =>
    let title : List Char := pyStrip titleRaw
    let conf := pyStrip (restTail.takeWhile (· ≠ '.'))
    let pubSec := pyStrip ((restTail.drop conf.length).dropWhile fun c =>
      c = '.' || c = ' ')
    match cPubScan [] pubSec with
    | some (loc, pub, yr, pages) =>
      .ok (.conference ⟨⟨title⟩, authors, some yr, "zh", ⟨conf⟩,
        some ⟨pyStrip loc⟩, pages.map (⟨·⟩), some ⟨pyStrip pub⟩, none⟩)
    | none =>
      .ok (.conference ⟨⟨title⟩, authors, none, "zh", ⟨conf⟩,
        none, none, none, none⟩)

/-! ## Parser — APA-family and legacy grammars

These grammars are whole-string `re.match` patterns with several lazy
groups.  The translations below enumerate the same candidate split points
left to right; group values that the source immediately `.strip()`s are
modelled after maximal greedy whitespace (the one-character whitespace
giveback of `\s*` can only prepend whitespace to such groups and is
therefore dropped where it cannot change the stripped value). -/

/-- `re.finditer(r"\s*([^,]+?),\s*([A-Z][A-Za-z\. ]*)(?:,|$)", seg)` body
of `_parse_apa_authors`. -/
def apaInitCls (c : Char) : Bool := isAlphaC c || c = '.' || c = ' '

def apaAuthorsGo : Nat → List Char → List Author
  | 0, _ => []
  | fuel + 1, l =>
    match l with
    | [] => []
    | _ :: ltail =>
      let att : Option (Author × List Char) :=
        let l1 := l.dropWhile isSpaceC
        match splitFirstSub [','] l1 with
        | some (sur, rest) =>
          if sur = [] then none
          else
            let r1 := rest.dropWhile isSpaceC
            match r1 with
            | c :: r2 =>
              if 65 ≤ c.toNat ∧ c.toNat ≤ 90 then
                let run := r2.takeWhile apaInitCls
                let cleaned := (pyStrip (c :: run)).filter (· ≠ '.')
                let a := Author.mk ⟨pyStrip sur⟩
                  (some ⟨joinWith [' '] (pySplitWS cleaned)⟩) false
                match r2.drop run.length with
                | [] => some (a, [])
                | ',' :: rem => some (a, rem)
                | _ => none
              else none
            | [] => none
        | none => none
      match att with
      | some (a, rem) => a :: apaAuthorsGo fuel rem
      | none => apaAuthorsGo fuel ltail

/-- `_parse_apa_authors` (falls back to `_split_authors`). -/
def _parse_apa_authors (segment : List Char) : List Author :=
  let seg := replaceChar '&' ',' segment
  let authors := apaAuthorsGo (seg.length + 1) seg
  if authors = [] then _split_authors segment else authors

/-- `\((\d{4})\)\.` at the head of a list: year and the text after `).`. -/
def apaYearParenDot (l : List Char) : Option (Nat × List Char) :=
  match l with
  | '(' :: r =>
    let d := r.take 4
    if d.length = 4 ∧ d.all isDigitC ∧ (r.drop 4).head? = some ')' ∧
        (r.drop 5).head? = some '.' then
      some (digitsVal d, r.drop 6)
    else none
  | _ => none

/-- `\((\d{4})(?:,[^)]*)?\)\.` (chapter variant: anything after a comma up
to the closing parenthesis is skipped). -/
def apaYearParenDotChapter (l : List Char) : Option (Nat × List Char) :=
  match l with
  | '(' :: r =>
    let d := r.take 4
    if d.length = 4 ∧ d.all isDigitC then
      match r.drop 4 with
      | ')' :: '.' :: rest => some (digitsVal d, rest)
      | ',' :: r2 =>
        let skip := r2.takeWhile (· ≠ ')')
        match r2.drop skip.length with
        | ')' :: '.' :: rest => some (digitsVal d, rest)
        | _ => none
      | _ => none
    else none
  | _ => none

/-- `\((\d{4})(?:,\s*[A-Za-z]+)?\)\.` (extended-conference variant). -/
def apaYearParenDotMonth (l : List Char) : Option (Nat × List Char) :=
  match l with
  | '(' :: r =>
    let d := r.take 4
    if d.length = 4 ∧ d.all isDigitC then
      match r.drop 4 with
      | ')' :: '.' :: rest => some (digitsVal d, rest)
      | ',' :: r2 =>
        let w := r2.dropWhile isSpaceC
        let mo := w.takeWhile isAlphaC
        if mo ≠ [] then
          match w.drop mo.length with
          | ')' :: '.' :: rest => some (digitsVal d, rest)
          | _ => none
        else none
      | _ => none
    else none
  | _ => none

/-- `^(?P<authors>.+?)\s*\((?P<year>...)\)\.` scan: enumerate year-paren
candidates left to right, handing `(authors, year, rest)` to a
continuation and resuming on its failure. -/
def apaScanYP (yp : List Char → Option (Nat × List Char))
    (k : List Char → Nat → List Char → Option Entry) :
    List Char → List Char → Option Entry
  | _, [] => none
  | accRev, c :: rs =>
    match yp (c :: rs) with
    | some (y, rest) =>
      let authors := rstripBy isSpaceC accRev.reverse
      match (if authors ≠ [] ∧ authors.all (· ≠ '\n') then k authors y rest
             else none) with
      | some b => some b
      | none => apaScanYP yp k (c :: accRev) rs
    | none => apaScanYP yp k (c :: accRev) rs

/-- Lazy `(?P<title>.+?)\.` scan handing `(title, after-the-period)` to a
continuation. -/
def dotIter (k : List Char → List Char → Option Entry) :
    List Char → List Char → Option Entry
  | _, [] => none
  | accRev, c :: rs =>
    if c = '.' ∧ accRev ≠ [] ∧ accRev.all (· ≠ '\n') then
      match k accRev.reverse rs with
      | some b => some b
      | none => dotIter k (c :: accRev) rs
    else dotIter k (c :: accRev) rs

/-- `\s*(?P<tail>.*)$`: like `restMatch` but the tail may be empty. -/
def dsCore (cand : List Char) : Option (List Char) :=
  let X := cand.takeWhile (· ≠ '\n')
  if cand.drop X.length = [] ∨ cand.drop X.length = ['\n'] then some X else none

def dsGo (u : List Char) : Nat → Option (List Char)
  | 0 => dsCore u
  | k + 1 =>
    match dsCore (u.drop (k + 1)) with
    | some X => some X
    | none => dsGo u k

def dollarStar (u : List Char) : Option (List Char) :=
  dsGo u (u.takeWhile isSpaceC).length

def isDoiBodyChar (c : Char) : Bool :=
  c = '-' || c = '.' || c = '_' || c = ';' || c = '(' || c = ')' || c = '/' ||
    c = ':' || isAlphaC c || isDigitC c

/-- `10\.\d{4,9}/[-._;()/:A-Za-z0-9]+` at one position. -/
def doiPatAt (l : List Char) : Option (List Char) :=
  if listStartsWith "10.".data l then
    let d := (l.drop 3).takeWhile isDigitC
    if 4 ≤ d.length ∧ d.length ≤ 9 ∧ ((l.drop 3).drop d.length).head? = some '/' then
      let body := (((l.drop 3).drop d.length).drop 1).takeWhile isDoiBodyChar
      if body ≠ [] then some ("10.".data ++ d ++ "/".data ++ body) else none
    else none
  else none

def doiPatScan : List Char → Option (List Char)
  | [] => none
  | c :: r =>
    match doiPatAt (c :: r) with
    | some d => some d
    | none => doiPatScan r

/-- `https?://doi\.org/(10\....)` search (the group is the DOI pattern). -/
def doiOrgScan : List Char → Option (List Char)
  | [] => none
  | c :: r =>
    let rest? : Option (List Char) :=
      if listStartsWith "https://doi.org/".data (c :: r) then
        some ((c :: r).drop 16)
      else if listStartsWith "http://doi.org/".data (c :: r) then
        some ((c :: r).drop 15)
      else none
    match rest? with
    | some rest =>
      match doiPatAt rest with
      | some d => some d
      | none => doiOrgScan r
    | none => doiOrgScan r

/-- `(?P<vol>\d+)(?:\((?P<iss>[^)]+)\))?` of the APA journal shape. -/
def apaViMatch (s : List Char) : Option (List Char) × Option (List Char) :=
  let vol := s.takeWhile isDigitC
  if vol = [] then (none, none)
  else
    match s.drop vol.length with
    | '(' :: r =>
      let iss := r.takeWhile (· ≠ ')')
      if iss ≠ [] ∧ (r.drop iss.length).head? = some ')' then (some vol, some iss)
      else (some vol, none)
    | _ => (some vol, none)

/-- APA journal-article shape. -/
def apaJournal (text : List Char) : Option Entry :=
  apaScanYP apaYearParenDot (fun authorsRaw y rest =>
    dotIter (fun titleRaw u =>
      let u1 := u.dropWhile isSpaceC
      let j := u1.takeWhile (· ≠ ',')
      if j = [] then none
      else
        match u1.drop j.length with
        | ',' :: v0 =>
          let v1 := v0.dropWhile isSpaceC
          let vi := v1.takeWhile (· ≠ ',')
          if vi = [] then none
          else
            match v1.drop vi.length with
            | ',' :: w0 =>
              let w1 := w0.dropWhile isSpaceC
              let pg := w1.takeWhile (· ≠ '.')
              if pg = [] then none
              else
                match w1.drop pg.length with
                | '.' :: t0 =>
                  match dollarStar t0 with
                  | some tailRaw =>
                    let tl := pyStrip tailRaw
                    let vis := pyStrip vi
                    let vp := apaViMatch vis
                    let doi :=
                      match doiPatScan tl with
                      | some dd => some dd
                      | none => doiOrgScan tl
                    some (.journal ⟨⟨pyStrip titleRaw⟩,
                      _parse_apa_authors authorsRaw, some (y : Int), "zh",
                      ⟨pyStrip j⟩, vp.1.map (⟨·⟩), vp.2.map (⟨·⟩),
                      some ⟨pyStrip pg⟩, doi.map (⟨·⟩)⟩)
                  | none => none
                | _ => none
            | _ => none
        | _ => none) [] (rest.dropWhile isSpaceC)) [] text

/-- `\s*\(pp\.` (case-insensitive `pp`) at one position. -/
def isPpAt (l : List Char) : Bool :=
  match l with
  | a :: b :: c :: d :: _ => a = '(' ∧ lowerChar b = 'p' ∧ lowerChar c = 'p' ∧ d = '.'
  | _ => false

/-- Lazy `(?P<x>.+?)\s*\(pp\.` scan handing `(x, after-pp-dot)` on. -/
def ppIter (k : List Char → List Char → Option Entry) :
    List Char → List Char → Option Entry
  | _, [] => none
  | accRev, c :: rs =>
    if isPpAt (c :: rs) then
      let grp := rstripBy isSpaceC accRev.reverse
      match (if grp ≠ [] ∧ grp.all (· ≠ '\n') then k grp ((c :: rs).drop 4)
             else none) with
      | some b => some b
      | none => ppIter k (c :: accRev) rs
    else ppIter k (c :: accRev) rs

def isApaPagesChar (c : Char) : Bool := isDigitC c || c = '-' || c.toNat = 0x2013

/-- `\s*(?P<pages>[0-9\-–]+)\)\.` after `(pp.`: pages, then what follows `).`. -/
def ppPages (l : List Char) : Option (List Char × List Char) :=
  let w := l.dropWhile isSpaceC
  let pg := w.takeWhile isApaPagesChar
  if pg = [] then none
  else
    match w.drop pg.length with
    | ')' :: '.' :: rest => some (pg, rest)
    | _ => none

/-- `In\s+` (case-insensitive) after the title period and whitespace. -/
def inKeyword (u : List Char) : Option (List Char) :=
  let w := u.dropWhile isSpaceC
  if (w.take 2).map lowerChar = "in".data then
    match w.drop 2 with
    | c :: r => if isSpaceC c then some ((c :: r).dropWhile isSpaceC) else none
    | [] => none
  else none

/-- `(?P<publisher>[^.]+)\.?$` at the end of the chapter/conference-ext
shapes. -/
def pubDollar (l : List Char) : Option (List Char) :=
  let w := l.dropWhile isSpaceC
  let pub := w.takeWhile (· ≠ '.')
  if pub = [] then none
  else
    match w.drop pub.length with
    | [] => some pub
    | ['.'] => some pub
    | ['.', '\n'] => some pub
    | _ => none

/-- APA book-chapter shape. -/
def apaChapter (text : List Char) : Option Entry :=
  apaScanYP apaYearParenDotChapter (fun authorsRaw y rest =>
    dotIter (fun titleRaw u =>
      match inKeyword u with
      | some bookStart =>
        ppIter (fun bookRaw afterPp =>
          match ppPages afterPp with
          | some (pg, rest2) =>
            let w := rest2.dropWhile isSpaceC
            let pl := w.takeWhile (· ≠ ':')
            if pl = [] then none
            else
              match w.drop pl.length with
              | ':' :: r2 =>
                match pubDollar r2 with
                | some pub =>
                  some (.chapter ⟨⟨rstripBy (· = '.') (pyStrip titleRaw)⟩,
                    _parse_apa_authors authorsRaw, some (y : Int), "zh",
                    ⟨rstripBy (· = '.') (pyStrip bookRaw)⟩,
                    some ⟨pyStrip pl⟩, some ⟨pyStrip pub⟩, some ⟨pg⟩⟩)
                | none => none
              | _ => none
          | none => none) [] bookStart
      | none => none) [] (rest.dropWhile isSpaceC)) [] text

/-- `(?P<conf>[^.]+?)\.?$` tail of the bare APA conference shape. -/
def confTailMatch (R : List Char) : Option (List Char) :=
  let X := R.takeWhile (· ≠ '.')
  if X = [] then none
  else
    match R.drop X.length with
    | [] =>
      if X.getLast? = some '\n' ∧ X.dropLast ≠ [] then some X.dropLast else some X
    | '.' :: rest => if rest = [] ∨ rest = ['\n'] then some X else none
    | _ => none

/-- Bare APA conference shape. -/
def apaConf (text : List Char) : Option Entry :=
  apaScanYP apaYearParenDot (fun authorsRaw y rest =>
    dotIter (fun titleRaw u =>
      match confTailMatch (u.dropWhile isSpaceC) with
      | some conf =>
        some (.conference ⟨⟨pyStrip titleRaw⟩, _parse_apa_authors authorsRaw,
          some (y : Int), "zh", ⟨pyStrip conf⟩, none, none, none, none⟩)
      | none => none) [] (rest.dropWhile isSpaceC)) [] text

/-- Extended APA conference shape. -/
def apaConfExt (text : List Char) : Option Entry :=
  apaScanYP apaYearParenDotMonth (fun authorsRaw y rest =>
    dotIter (fun titleRaw u =>
      match inKeyword u with
      | some confStart =>
        ppIter (fun confRaw afterPp =>
          match ppPages afterPp with
          | some (pg, rest2) =>
            match pubDollar rest2 with
            | some pub =>
              some (.conference ⟨⟨pyStrip titleRaw⟩,
                _parse_apa_authors authorsRaw, some (y : Int), "zh",
                ⟨rstripBy (· = '.') (pyStrip confRaw)⟩, none, some ⟨pg⟩,
                some ⟨pyStrip pub⟩, none⟩)
            | none => none
          | none => none) [] confStart
      | none => none) [] (rest.dropWhile isSpaceC)) [] text

def endsWithSub (suf l : List Char) : Bool :=
  listStartsWith suf.reverse l.reverse

/-- `re.sub(r"[,;\s]*(et al\.?|等)$", "", s, flags=re.IGNORECASE)`. -/
def etAlSub (a : List Char) : List Char :=
  let low := a.map lowerChar
  let cut :=
    if endsWithSub "et al.".data low then a.take (a.length - 6)
    else if endsWithSub "et al".data low then a.take (a.length - 5)
    else if endsWithSub "等".data a then a.take (a.length - 1)
    else a
  if cut.length = a.length then a
  else rstripBy (fun c => c = ',' || c = ';' || isSpaceC c) cut

/-- Legacy trailing-year shape
`Authors. "Title." Journal Volume (Year).` -/
def legacyNips (text : List Char) : Option Entry :=
  dotIter (fun authorsRaw u =>
    let u1 := u.dropWhile isSpaceC
    let u2 := match u1 with
      | '"' :: r => r
      | _ => u1
    let title := u2.takeWhile fun c => c ≠ '"' ∧ c ≠ '.'
    if title = [] then none
    else
      let u3 := u2.drop title.length
      let u4 := match u3 with
        | '"' :: r => r
        | _ => u3
      match u4 with
      | '.' :: u5 => legacyVolIter title authorsRaw [] (u5.dropWhile isSpaceC)
      | _ => none) [] text
where
  /-- `(?P<journal>.+?)\s+(?P<volume>\d+)\s*\((?P<year>\d{4})\)\.?$`. -/
  legacyVolIter (title authorsRaw : List Char) :
      List Char → List Char → Option Entry
    | _, [] => none
    | accRev, c :: rs =>
      let res : Option Entry :=
        if isDigitC c && (match accRev.head? with
            | some p => isSpaceC p
            | none => false) then
          let digits := (c :: rs).takeWhile isDigitC
          let after := (c :: rs).drop digits.length
          let w := after.dropWhile isSpaceC
          match w with
          | '(' :: r =>
            let d4 := r.take 4
            if d4.length = 4 ∧ d4.all isDigitC ∧ (r.drop 4).head? = some ')' ∧
                (r.drop 5 = [] ∨ r.drop 5 = ['.'] ∨ r.drop 5 = ['.', '\n'] ∨
                 r.drop 5 = ['\n']) then
              let journal := rstripBy isSpaceC accRev.reverse
              if journal ≠ [] ∧ journal.all (· ≠ '\n') then
                let authorsClean := etAlSub (pyStrip authorsRaw)
                some (.journal ⟨⟨pyStrip title⟩, _parse_apa_authors authorsClean,
                  some ((digitsVal d4 : Nat) : Int), "zh",
                  ⟨rstripBy (· = ',') (pyStrip journal)⟩,
                  some ⟨digits⟩, none, none, none⟩)
              else none
            else none
          | _ => none
        else none
      match res with
      | some e => some e
      | none => legacyVolIter title authorsRaw (c :: accRev) rs

/-- The APA / legacy cascade tried when no marker is present. -/
def apaCascade (text : List Char) : Except String Entry :=
  match apaJournal text with
  | some e => .ok e
  | none =>
    match apaChapter text with
    | some e => .ok e
    | none =>
      match apaConf text with
      | some e => .ok e
      | none =>
        match apaConfExt text with
        | some e => .ok e
        | none =>
          match legacyNips text with
          | some e => .ok e
          | none =>
            .error "未识别的类型标识（需要包含 [J]/[M]/[EB/OL]/[DB/OL]/[C] 或符合 APA 模式）"

/-- `parse_reference`: `@`-prefix BibTeX dispatch, then marker search,
then the APA cascade. -/
def parse_reference (raw : String) : Except String Entry :=
  if listStartsWith ['@'] (pyLstrip raw.data) then _parse_bibtex raw
  else
    let text := pyStrip raw.data
    match findMarker text with
    | none => apaCascade text
    | some mk =>
      match preTitle text with
      | none => .error "无法解析作者与题名分界（缺少句点）"
      | some (authorsRaw, rest) =>
        let authors := _split_authors authorsRaw
        match mk with
        | .J => jBranch authors rest
        | .M => mBranch authors rest
        | .EB => ebBranch "EB/OL".data authors rest
        | .DB => ebBranch "DB/OL".data authors rest
        | .C => cBranch authors rest

/-! ## Claim-support definitions -/

/-- The value processing exactly as claim C5 words it: trailing
commas/whitespace trimmed and one surrounding layer of braces or quotes
stripped (to compare against the code's `_strip_braces`). -/
def stripValueClaim (value : List Char) : List Char :=
  let v := rstripBy (fun c => isSpaceC c || c = ',') value
  if (listStartsWith [lbrace] v ∧ endsWithC rbrace v) ∨
     (listStartsWith ['"'] v ∧ endsWithC '"' v) then
    (v.drop 1).dropLast
  else v

/-- Depth update of the BibTeX scanner for one character. -/
def depthAdj (d : Nat) (c : Char) : Nat :=
  if c = lbrace then d + 1 else if c = rbrace then d - 1 else d

/-- Split a BibTeX body at commas that sit at brace depth 0
(a standalone splitter, not interleaved with field parsing). -/
def splitTopLevelGo : Nat → List Char → List Char → List (List Char)
  | _, [], acc => [acc.reverse]
  | d, c :: r, acc =>
    let d1 := depthAdj d c
    if c = ',' ∧ d1 = 0 then acc.reverse :: splitTopLevelGo d1 r []
    else splitTopLevelGo d1 r (c :: acc)

def splitTopLevel (body : List Char) : List (List Char) :=
  splitTopLevelGo 0 body []

/-- Fold the parsed `field=value` segments into the field dictionary. -/
def segsToFields (segs : List (List Char)) : List (List Char × List Char) :=
  segs.foldl
    (fun fs s =>
      match segParse s with
      | some (k, v) => dictInsert k v fs
      | none => fs) []

/-- The field dictionary `_parse_bibtex` builds for an input. -/
def bibtexFieldsOf (raw : String) : List (List Char × List Char) :=
  match bibtexTop (pyStrip raw.data) with
  | some (_, body) => bibtexFields (pyStrip body)
  | none => []

/-- Rebuild an `Author` from the normalised surname and space-joined
initials that `format_name` renders for a Latin name (claim C9's
round trip). -/
def roundTripAuthor (a : Author) : Author :=
  ⟨⟨normSurname a.last⟩,
    (match a.first with
     | some f => if hasInitials f then some ⟨normInitials f⟩ else none
     | none => none), false⟩

/-! ## Claims -/

/-- C2: the claim states `format_reference` is total over the five
variants constructed with valid required fields.  The code refutes it:
`format_conference` dereferences the non-existent `volume` attribute, so
every `ConferencePaper` — here one with all required fields set — raises
`AttributeError` instead of returning a string. -/
theorem c2_conference_format_raises :
    format_reference (.conference ⟨"T", [⟨"Liu", some "J", false⟩], some 2020,
      "zh", "Conf", none, none, none, none⟩) = .error .attributeError := rfl

/-- C6: evaluation at the failing input.  The claim says a value that
case-insensitively starts with `https://doi.org/` has the prefix
stripped; the code instead raises `IndexError` when the `doi.org/` part
is not lowercase, while the all-lowercase prefix works as described. -/
theorem c6_sanitize_doi_eval :
    sanitize_doi (some "HTTPS://DOI.ORG/10.1/x") = .error .indexError ∧
    sanitize_doi (some "https://doi.org/10.5/ab") = .ok (some "10.5/ab") :=
  ⟨rfl, rfl⟩

/-- C10: with `year` absent the journal, book and book-chapter renderers
substitute the literal `n.d.` in the year position, but the conference
renderer — the fourth variant of the claim — raises `AttributeError`
before producing any string. -/
theorem c10_nd_placeholder_eval :
    containsSub "n.d.".data (exceptOkD (format_reference (.journal
      ⟨"T", [], none, "zh", "J", none, none, none, none⟩))).data = true ∧
    containsSub "n.d.".data (exceptOkD (format_reference (.book
      ⟨"B", [], none, "zh", some "Pub", some "BJ", none, none⟩))).data = true ∧
    containsSub "n.d.".data (exceptOkD (format_reference (.chapter
      ⟨"Ch", [], none, "zh", "BK", none, none, none⟩))).data = true ∧
    format_reference (.conference ⟨"T", [], none, "zh", "Conf",
      none, none, none, none⟩) = .error .attributeError := by
  refine ⟨by decide, by decide, by decide, rfl⟩

/-- C3 counterexample: `parse_reference` on a BibTeX entry without a
`title` field returns an Entry whose `title` is the empty string, so the
invariant "title is never empty once an Entry is constructed" fails. -/
theorem c3_counterexample :
    Except.map Entry.title (parse_reference "@misc\x7bk, url=\x7bu\x7d\x7d")
      = .ok "" := rfl

/-- C5 counterexample: on the value `" {x}"` (a space before the braces,
as produced by the ordinary field ` title = {x}`) the code strips the
leading whitespace and the brace layer, yielding `"x"`, while the
processing as worded by the claim — only *trailing* commas/whitespace
trimmed, then one surrounding layer stripped — leaves `" {x}"`
unchanged; the two disagree. -/
theorem c5_counterexample :
    _strip_braces " \x7bx\x7d".data = "x".data ∧
    stripValueClaim " \x7bx\x7d".data = " \x7bx\x7d".data ∧
    " \x7bx\x7d".data ≠ "x".data := by
  refine ⟨by decide, by decide, by decide⟩

/-- C7 counterexample: two `[J]` inputs on which the claimed tail grammar
is wrong.  For `Nature Med., 2020` the text before the first comma
contains a period, so the code stores the placeholder `NA`, not
`Nature Med.`; for the tail `J: 2, 2020: 15` the pages come from the
*first* colon followed by a numeric token (`2`), not the last colon
(`15`). -/
theorem c7_counterexample :
    parse_reference "Liu X. Title[J]. Nature Med., 2020"
      = .ok (.journal ⟨"Title", [⟨"Liu X", none, false⟩], none, "zh", "NA",
          none, none, none, none⟩) ∧
    parse_reference "Liu X. Title[J]. J: 2, 2020: 15"
      = .ok (.journal ⟨"Title", [⟨"Liu X", none, false⟩], some 2020, "zh",
          "J: 2", none, none, some "2", none⟩) ∧
    ("NA" : String) ≠ "Nature Med." ∧ ("2" : String) ≠ "15" := by
  refine ⟨rfl, rfl, by decide, by decide⟩

/-- C9 counterexample: the claim quantifies over *every* Author whose
surname contains a Latin letter, which includes organization authors.
For the organization `NASA`, `format_name` returns `NASA` verbatim, but
rebuilding an Author from the normalised surname (`Nasa`) and re-running
`format_name` yields `Nasa` ≠ `NASA`. -/
theorem c9_counterexample :
    Author._is_latin ⟨"NASA", none, true⟩ = true ∧
    Author.format_name ⟨"NASA", none, true⟩ = "NASA" ∧
    Author.format_name (roundTripAuthor ⟨"NASA", none, true⟩) = "Nasa" ∧
    ("NASA" : String) ≠ "Nasa" := by
  refine ⟨by decide, rfl, by decide, by decide⟩

/-- C1: `format_authors` renders an empty list as the literal no-author
placeholder; a list of at most 3 authors as the `format_name` renderings
joined by `", "` with no suffix; and a longer list as the first 3
renderings joined by `", "` plus a suffix that is `et al.` when any of
those 3 rendered names contains a Latin letter and `等` otherwise — the
suffix (and the whole output) depending only on the first 3 authors. -/
theorem c1_format_authors_spec (authors : List Author) (lang : String) :
    (authors = [] → format_authors authors lang = "[无作者]") ∧
    (authors ≠ [] → authors.length ≤ 3 →
      format_authors authors lang =
        ⟨joinWith [',', ' '] ((authors.map Author.format_name).map String.data)⟩) ∧
    (3 < authors.length →
      format_authors authors lang =
        ⟨joinWith [',', ' ']
          (((authors.take 3).map Author.format_name).map String.data)⟩ ++ ", " ++
          (if ((authors.take 3).map Author.format_name).any
              (fun n => n.data.any isLatinChar) then "et al." else "等") ∧
      ∀ bs : List Author, 3 < bs.length → bs.take 3 = authors.take 3 →
        format_authors bs lang = format_authors authors lang) := by
  refine ⟨?_, ?_, ?_⟩
  · intro h; subst h; rfl
  · intro h1 h2
    unfold format_authors
    rw [if_neg h1, if_neg (by omega)]
  · intro h
    have hne : authors ≠ [] := by intro hh; subst hh; simp at h
    constructor
    · unfold format_authors
      rw [if_neg hne, if_pos h]
      rw [← List.map_take]
    · intro bs hbs htake
      have hbne : bs ≠ [] := by intro hh; subst hh; simp at hbs
      unfold format_authors
      rw [if_neg hbne, if_pos hbs, if_neg hne, if_pos h]
      rw [← List.map_take, htake, ← List.map_take]

/-- Witness for C1 at concrete inputs: four CJK authors truncate to the
first three plus `等`, two Latin authors are joined with no suffix, and
the empty list renders the placeholder. -/
theorem c1_format_authors_spec_witness :
    format_authors [⟨"张", some "三", false⟩, ⟨"李", some "四", false⟩,
        ⟨"王", some "五", false⟩, ⟨"赵", some "六", false⟩] "zh"
      = "张三, 李四, 王五, 等" ∧
    format_authors [⟨"Yu", some "H B", false⟩, ⟨"Liu", some "J G", false⟩] "zh"
      = "Yu H B, Liu J G" ∧
    format_authors [] "zh" = "[无作者]" := by
  refine ⟨?_, ?_, ?_⟩
  · exact ((c1_format_authors_spec _ "zh").2.2 (by decide)).1.trans (by decide)
  · exact ((c1_format_authors_spec _ "zh").2.1 (by decide) (by decide)).trans (by decide)
  · exact (c1_format_authors_spec [] "zh").1 rfl

/-- C4: whenever the left-trimmed input starts with `@`,
`parse_reference` is the BibTeX parser and nothing else — the result is
`_parse_bibtex raw` regardless of any marker-like or APA-like content of
the string. -/
theorem c4_bibtex_short_circuit (raw : String)
    (h : listStartsWith ['@'] (pyLstrip raw.data) = true) :
    parse_reference raw = _parse_bibtex raw := by
  unfold parse_reference
  rw [if_pos h]

/-- Witness for C4: a BibTeX entry whose title field contains a `[J]`
marker substring is still parsed as BibTeX (its journal comes from the
`journal` field, not from the GB/T `[J]` grammar). -/
theorem c4_bibtex_short_circuit_witness :
    parse_reference "@article\x7bk, title=\x7bX [J] Y\x7d, journal=\x7bN\x7d, year=\x7b2020\x7d\x7d"
      = _parse_bibtex "@article\x7bk, title=\x7bX [J] Y\x7d, journal=\x7bN\x7d, year=\x7b2020\x7d\x7d" ∧
    parse_reference "@article\x7bk, title=\x7bX [J] Y\x7d, journal=\x7bN\x7d, year=\x7b2020\x7d\x7d"
      = .ok (.journal ⟨"X [J] Y", [], some 2020, "zh", "N", none, none, none, none⟩) :=
  ⟨c4_bibtex_short_circuit _ (by decide), rfl⟩

theorem toNat_ofNat_valid (n : Nat) (h : n < 55296) : (Char.ofNat n).toNat = n := by
  have hv : n.isValidChar := Or.inl h
  unfold Char.ofNat
  rw [dif_pos hv]
  unfold Char.ofNatAux Char.toNat
  simp [UInt32.toNat, BitVec.toNat_ofNatLt]

theorem char_eq_iff_toNat {a b : Char} : a = b ↔ a.toNat = b.toNat := by
  constructor
  · intro h; rw [h]
  · intro h
    exact Char.eq_of_val_eq (UInt32.ext h)

theorem upperChar_toNat (c : Char) :
    (upperChar c).toNat = if 97 ≤ c.toNat ∧ c.toNat ≤ 122 then c.toNat - 32 else c.toNat := by
  unfold upperChar
  split
  · next h => exact toNat_ofNat_valid _ (by omega)
  · rfl

theorem lowerChar_toNat (c : Char) :
    (lowerChar c).toNat = if 65 ≤ c.toNat ∧ c.toNat ≤ 90 then c.toNat + 32 else c.toNat := by
  unfold lowerChar
  split
  · next h => exact toNat_ofNat_valid _ (by omega)
  · rfl

theorem bool_eq_of_iff {a b : Bool} (h : a = true ↔ b = true) : a = b := by
  cases a <;> cases b <;> simp_all

theorem isSpaceC_iff_toNat {c : Char} : isSpaceC c = true ↔
    (c.toNat = 32 ∨ c.toNat = 9 ∨ c.toNat = 10 ∨ c.toNat = 13 ∨
     c.toNat = 11 ∨ c.toNat = 12) := by
  unfold isSpaceC
  simp only [Bool.or_eq_true, decide_eq_true_eq, char_eq_iff_toNat]
  have h1 : (' ').toNat = 32 := rfl
  have h2 : ('\t').toNat = 9 := rfl
  have h3 : ('\n').toNat = 10 := rfl
  have h4 : ('\r').toNat = 13 := rfl
  rw [h1, h2, h3, h4]
  tauto

theorem upperChar_idem (c : Char) : upperChar (upperChar c) = upperChar c := by
  rw [char_eq_iff_toNat, upperChar_toNat (upperChar c), upperChar_toNat c]
  split_ifs <;> omega

theorem lowerChar_idem (c : Char) : lowerChar (lowerChar c) = lowerChar c := by
  rw [char_eq_iff_toNat, lowerChar_toNat (lowerChar c), lowerChar_toNat c]
  split_ifs <;> omega

theorem isLatinChar_iff {c : Char} : isLatinChar c = true ↔
    (65 ≤ c.toNat ∧ c.toNat ≤ 90) ∨ (97 ≤ c.toNat ∧ c.toNat ≤ 122) := by
  unfold isLatinChar
  simp only [Bool.and_eq_true, decide_eq_true_eq, upperChar_toNat]
  split_ifs <;> omega

theorem isLatinChar_upperChar (c : Char) :
    isLatinChar (upperChar c) = isLatinChar c := by
  apply bool_eq_of_iff
  rw [isLatinChar_iff, isLatinChar_iff, upperChar_toNat]
  split_ifs <;> omega

theorem isLatinChar_lowerChar (c : Char) :
    isLatinChar (lowerChar c) = isLatinChar c := by
  apply bool_eq_of_iff
  rw [isLatinChar_iff, isLatinChar_iff, lowerChar_toNat]
  split_ifs <;> omega

theorem isSpaceC_upperChar (c : Char) : isSpaceC (upperChar c) = isSpaceC c := by
  apply bool_eq_of_iff
  rw [isSpaceC_iff_toNat, isSpaceC_iff_toNat, upperChar_toNat]
  split_ifs <;> omega

theorem isSpaceC_lowerChar (c : Char) : isSpaceC (lowerChar c) = isSpaceC c := by
  apply bool_eq_of_iff
  rw [isSpaceC_iff_toNat, isSpaceC_iff_toNat, lowerChar_toNat]
  split_ifs <;> omega

theorem upperChar_eq_hyphen_iff {c : Char} : upperChar c = '-' ↔ c = '-' := by
  rw [char_eq_iff_toNat, char_eq_iff_toNat, upperChar_toNat]
  have : ('-').toNat = 45 := rfl
  rw [this]
  split_ifs <;> omega

theorem lowerChar_eq_hyphen_iff {c : Char} : lowerChar c = '-' ↔ c = '-' := by
  rw [char_eq_iff_toNat, char_eq_iff_toNat, lowerChar_toNat]
  have : ('-').toNat = 45 := rfl
  rw [this]
  split_ifs <;> omega

theorem splitWSGo_append_nonspace (p : List Char)
    (hp : ∀ c ∈ p, ¬ isSpaceC c = true) (l acc : List Char) :
    splitWSGo (p ++ l) acc = splitWSGo l (p.reverse ++ acc) := by
  induction p generalizing acc with
  | nil => simp
  | cons c r ih =>
    simp only [List.cons_append, List.append_eq, splitWSGo]
    rw [if_neg (hp c (by simp))]
    rw [ih (fun d hd => hp d (by simp [hd])) (c :: acc)]
    simp [List.append_assoc]

theorem splitWS_of_clean (p : List Char) (hne : p ≠ [])
    (hp : ∀ c ∈ p, ¬ isSpaceC c = true) : pySplitWS p = [p] := by
  unfold pySplitWS
  have h0 : splitWSGo (p ++ []) [] = splitWSGo [] (p.reverse ++ []) :=
    splitWSGo_append_nonspace p hp [] []
  simp only [List.append_nil] at h0
  rw [h0]
  simp [splitWSGo, hne]

theorem splitWS_join (parts : List (List Char))
    (h : ∀ p ∈ parts, p ≠ [] ∧ ∀ c ∈ p, ¬ isSpaceC c = true) :
    pySplitWS (joinWith [' '] parts) = parts := by
  induction parts with
  | nil => rfl
  | cons p rest ih =>
    cases rest with
    | nil =>
      show pySplitWS (joinWith [' '] [p]) = [p]
      have := h p (by simp)
      simpa [joinWith] using splitWS_of_clean p this.1 this.2
    | cons q r =>
      have hp := h p (by simp)
      show pySplitWS (p ++ [' '] ++ joinWith [' '] (q :: r)) = p :: q :: r
      unfold pySplitWS
      rw [List.append_assoc,
        splitWSGo_append_nonspace p hp.2 ([' '] ++ joinWith [' '] (q :: r)) []]
      simp only [List.append_nil]
      show splitWSGo (' ' :: joinWith [' '] (q :: r)) p.reverse = _
      rw [splitWSGo, if_pos (by decide), if_neg (by simp [hp.1])]
      rw [List.reverse_reverse]
      exact congrArg (p :: ·) (ih fun x hx => h x (by simp [hx]))

theorem splitWSGo_tokens (l : List Char) :
    ∀ acc, (∀ c ∈ acc, ¬ isSpaceC c = true) →
      ∀ t ∈ splitWSGo l acc, (acc ≠ [] ∨ t ≠ []) ∧
        t ≠ [] ∧ ∀ c ∈ t, ¬ isSpaceC c = true := by
  induction l with
  | nil =>
    intro acc hacc t ht
    unfold splitWSGo at ht
    by_cases h : acc = []
    · simp [h] at ht
    · simp [h] at ht
      subst ht
      refine ⟨Or.inl h, by simpa using h, fun c hc => hacc c (by simpa using hc)⟩
  | cons c r ih =>
    intro acc hacc t ht
    unfold splitWSGo at ht
    by_cases hs : isSpaceC c = true
    · rw [if_pos hs] at ht
      by_cases h : acc = []
      · rw [if_pos h] at ht
        exact ⟨Or.inr (ih [] (by simp) t ht).2.1, (ih [] (by simp) t ht).2⟩
      · rw [if_neg h] at ht
        rcases List.mem_cons.mp ht with h1 | h2
        · subst h1
          refine ⟨Or.inl h, by simpa using h, fun d hd => hacc d (by simpa using hd)⟩
        · exact ⟨Or.inr (ih [] (by simp) t h2).2.1, (ih [] (by simp) t h2).2⟩
    · rw [if_neg hs] at ht
      have := ih (c :: acc) (by
        intro d hd
        rcases List.mem_cons.mp hd with h1 | h2
        · subst h1; exact hs
        · exact hacc d h2) t ht
      exact ⟨Or.inr this.2.1, this.2⟩

/-- Every token of `pySplitWS` is non-empty and whitespace-free. -/
theorem pySplitWS_tokens (l : List Char) :
    ∀ t ∈ pySplitWS l, t ≠ [] ∧ ∀ c ∈ t, ¬ isSpaceC c = true := by
  intro t ht
  exact (splitWSGo_tokens l [] (by simp) t ht).2

theorem splitWSGo_chars (l : List Char) :
    ∀ acc, ∀ t ∈ splitWSGo l acc, ∀ c ∈ t, c ∈ acc ∨ c ∈ l := by
  induction l with
  | nil =>
    intro acc t ht c hc
    unfold splitWSGo at ht
    by_cases h : acc = []
    · simp [h] at ht
    · simp [h] at ht
      subst ht
      exact Or.inl (by simpa using hc)
  | cons a r ih =>
    intro acc t ht c hc
    unfold splitWSGo at ht
    by_cases hs : isSpaceC a = true
    · rw [if_pos hs] at ht
      by_cases h : acc = []
      · rw [if_pos h] at ht
        rcases ih [] t ht c hc with h1 | h2
        · simp at h1
        · exact Or.inr (by simp [h2])
      · rw [if_neg h] at ht
        rcases List.mem_cons.mp ht with h1 | h2
        · subst h1; exact Or.inl (by simpa using hc)
        · rcases ih [] t h2 c hc with h1 | h3
          · simp at h1
          · exact Or.inr (by simp [h3])
    · rw [if_neg hs] at ht
      rcases ih (a :: acc) t ht c hc with h1 | h2
      · rcases List.mem_cons.mp h1 with h3 | h4
        · exact Or.inr (by simp [h3])
        · exact Or.inl h4
      · exact Or.inr (by simp [h2])

theorem splitWSGo_mem_acc (l : List Char) :
    ∀ acc, ∀ c ∈ acc, ∃ t ∈ splitWSGo l acc, c ∈ t := by
  induction l with
  | nil =>
    intro acc c hc
    have hne : acc ≠ [] := by rintro rfl; simp at hc
    refine ⟨acc.reverse, ?_, by simpa using hc⟩
    unfold splitWSGo
    simp [hne]
  | cons a r ih =>
    intro acc c hc
    have hne : acc ≠ [] := by rintro rfl; simp at hc
    unfold splitWSGo
    by_cases hs : isSpaceC a = true
    · rw [if_pos hs, if_neg hne]
      exact ⟨acc.reverse, by simp, by simpa using hc⟩
    · rw [if_neg hs]
      exact ih (a :: acc) c (by simp [hc])

theorem splitWSGo_mem (l : List Char) :
    ∀ acc, ∀ c ∈ l, ¬ isSpaceC c = true → ∃ t ∈ splitWSGo l acc, c ∈ t := by
  induction l with
  | nil => intro acc c hc; simp at hc
  | cons a r ih =>
    intro acc c hc hns
    rcases List.mem_cons.mp hc with h1 | h2
    · subst h1
      unfold splitWSGo
      rw [if_neg hns]
      exact splitWSGo_mem_acc r (c :: acc) c (by simp)
    · unfold splitWSGo
      by_cases hs : isSpaceC a = true
      · rw [if_pos hs]
        by_cases h : acc = []
        · rw [if_pos h]; exact ih [] c h2 hns
        · rw [if_neg h]
          obtain ⟨t, ht, hct⟩ := ih [] c h2 hns
          exact ⟨t, by simp [ht], hct⟩
      · rw [if_neg hs]
        exact ih (a :: acc) c h2 hns

theorem mem_joinWith (sep : List Char) (parts : List (List Char)) (t : List Char)
    (ht : t ∈ parts) (c : Char) (hc : c ∈ t) : c ∈ joinWith sep parts := by
  induction parts with
  | nil => simp at ht
  | cons p rest ih =>
    cases rest with
    | nil =>
      simp at ht
      subst ht
      simpa [joinWith] using hc
    | cons q r =>
      rcases List.mem_cons.mp ht with h1 | h2
      · subst h1
        show c ∈ t ++ sep ++ joinWith sep (q :: r)
        simp [hc]
      · show c ∈ p ++ sep ++ joinWith sep (q :: r)
        simp [ih h2]

theorem joinWith_chars (sep : List Char) (parts : List (List Char)) (c : Char)
    (hc : c ∈ joinWith sep parts) : (∃ t ∈ parts, c ∈ t) ∨ c ∈ sep := by
  induction parts with
  | nil => simp [joinWith] at hc
  | cons p rest ih =>
    cases rest with
    | nil =>
      simp [joinWith] at hc
      exact Or.inl ⟨p, by simp, hc⟩
    | cons q r =>
      have hc' : c ∈ p ++ sep ++ joinWith sep (q :: r) := hc
      rcases List.mem_append.mp hc' with h1 | h2
      · rcases List.mem_append.mp h1 with h3 | h4
        · exact Or.inl ⟨p, by simp, h3⟩
        · exact Or.inr h4
      · rcases ih h2 with ⟨t, ht, hct⟩ | h3
        · exact Or.inl ⟨t, by simp [ht], hct⟩
        · exact Or.inr h3

theorem replaceChar_self_of_not_mem {a b : Char} {l : List Char}
    (h : ∀ c ∈ l, c ≠ a) : replaceChar a b l = l := by
  unfold replaceChar
  rw [List.map_congr_left fun c hc => if_neg (h c hc)]
  exact List.map_id l

theorem replaceChar_not_mem {l : List Char} :
    ∀ c ∈ replaceChar '-' ' ' l, c ≠ '-' := by
  intro c hc
  unfold replaceChar at hc
  obtain ⟨d, _, hd⟩ := List.mem_map.mp hc
  by_cases h : d = '-'
  · rw [if_pos h] at hd
    rw [← hd]
    decide
  · rw [if_neg h] at hd
    rw [← hd]
    exact h

theorem mem_replaceChar_of_ne {a b c : Char} {l : List Char}
    (hc : c ∈ l) (hne : c ≠ a) : c ∈ replaceChar a b l := by
  unfold replaceChar
  exact List.mem_map.mpr ⟨c, hc, if_neg hne⟩

/-- Tokens of the surname split: non-empty, whitespace-free, hyphen-free. -/
theorem surnameTokens_clean (s : List Char) :
    ∀ t ∈ pySplitWS (replaceChar '-' ' ' s),
      t ≠ [] ∧ (∀ c ∈ t, ¬ isSpaceC c = true) ∧ ∀ c ∈ t, c ≠ '-' := by
  intro t ht
  have h1 := pySplitWS_tokens _ t ht
  refine ⟨h1.1, h1.2, fun c hc => ?_⟩
  have := splitWSGo_chars (replaceChar '-' ' ' s) [] t ht c hc
  rcases this with h | h
  · simp at h
  · exact replaceChar_not_mem c h

theorem pyCapitalize_clean {t : List Char}
    (h1 : t ≠ []) (h2 : ∀ c ∈ t, ¬ isSpaceC c = true) (h3 : ∀ c ∈ t, c ≠ '-') :
    pyCapitalize t ≠ [] ∧ (∀ c ∈ pyCapitalize t, ¬ isSpaceC c = true) ∧
      ∀ c ∈ pyCapitalize t, c ≠ '-' := by
  cases t with
  | nil => exact absurd rfl h1
  | cons a r =>
    refine ⟨by simp [pyCapitalize], ?_, ?_⟩
    · intro c hc
      rcases List.mem_cons.mp hc with h | h
      · subst h
        rw [isSpaceC_upperChar]
        exact h2 a (by simp)
      · obtain ⟨d, hd, hcd⟩ := List.mem_map.mp h
        rw [← hcd, isSpaceC_lowerChar]
        exact h2 d (by simp [hd])
    · intro c hc
      rcases List.mem_cons.mp hc with h | h
      · subst h
        intro hcon
        exact h3 a (by simp) (upperChar_eq_hyphen_iff.mp hcon)
      · obtain ⟨d, hd, hcd⟩ := List.mem_map.mp h
        subst hcd
        intro hcon
        exact h3 d (by simp [hd]) (lowerChar_eq_hyphen_iff.mp hcon)

theorem pyCapitalize_idem (t : List Char) :
    pyCapitalize (pyCapitalize t) = pyCapitalize t := by
  cases t with
  | nil => rfl
  | cons a r =>
    show upperChar (upperChar a) :: (r.map lowerChar).map lowerChar = _
    rw [upperChar_idem, List.map_map]
    congr 1
    exact List.map_congr_left fun c _ => lowerChar_idem c

/-- `normSurname` is idempotent. -/
theorem normSurname_idem (s : String) :
    normSurname ⟨normSurname s⟩ = normSurname s := by
  have hcapsClean : ∀ t ∈ (pySplitWS (replaceChar '-' ' ' s.data)).map pyCapitalize,
      t ≠ [] ∧ (∀ c ∈ t, ¬ isSpaceC c = true) ∧ ∀ c ∈ t, c ≠ '-' := by
    intro t ht
    obtain ⟨u, hu, hut⟩ := List.mem_map.mp ht
    obtain ⟨g1, g2, g3⟩ := surnameTokens_clean s.data u hu
    rw [← hut]
    exact pyCapitalize_clean g1 g2 g3
  have hrep : replaceChar '-' ' ' (normSurname s) = normSurname s := by
    apply replaceChar_self_of_not_mem
    intro c hc
    rcases joinWith_chars _ _ _ hc with ⟨t, ht, hct⟩ | h
    · exact (hcapsClean t ht).2.2 c hct
    · simp at h
      subst h
      decide
  show joinWith [' ']
      ((pySplitWS (replaceChar '-' ' ' (normSurname s))).map pyCapitalize)
    = normSurname s
  rw [hrep]
  show joinWith [' ']
      ((pySplitWS (joinWith [' ']
        ((pySplitWS (replaceChar '-' ' ' s.data)).map pyCapitalize))).map pyCapitalize)
    = normSurname s
  rw [splitWS_join _ fun p hp => ⟨(hcapsClean p hp).1, (hcapsClean p hp).2.1⟩]
  have hmapid : ((pySplitWS (replaceChar '-' ' ' s.data)).map pyCapitalize).map
      pyCapitalize = (pySplitWS (replaceChar '-' ' ' s.data)).map pyCapitalize := by
    rw [List.map_map]
    exact List.map_congr_left fun u _ => pyCapitalize_idem u
  rw [hmapid]
  rfl

theorem normSurname_latin {s : String} (h : s.data.any isLatinChar = true) :
    (normSurname s).any isLatinChar = true := by
  rw [List.any_eq_true] at h ⊢
  obtain ⟨c, hc, hlat⟩ := h
  have hnothyph : c ≠ '-' := by
    intro hcon
    subst hcon
    exact absurd hlat (by decide)
  have hns : ¬ isSpaceC c = true := by
    intro hsp
    rw [isSpaceC_iff_toNat] at hsp
    rcases isLatinChar_iff.mp hlat with ⟨h1, h2⟩ | ⟨h1, h2⟩ <;> omega
  have hc2 : c ∈ replaceChar '-' ' ' s.data := mem_replaceChar_of_ne hc hnothyph
  obtain ⟨t, ht, hct⟩ := splitWSGo_mem _ [] c hc2 hns
  have hex : ∃ d ∈ pyCapitalize t, isLatinChar d = true := by
    cases t with
    | nil => simp at hct
    | cons a r =>
      rcases List.mem_cons.mp hct with h1 | h2
      · refine ⟨upperChar a, by simp [pyCapitalize], ?_⟩
        rw [isLatinChar_upperChar, ← h1]
        exact hlat
      · refine ⟨lowerChar c, ?_, ?_⟩
        · show lowerChar c ∈ upperChar a :: r.map lowerChar
          exact List.mem_cons.mpr (Or.inr (List.mem_map.mpr ⟨c, h2, rfl⟩))
        · rw [isLatinChar_lowerChar]
          exact hlat
  obtain ⟨d, hd, hdlat⟩ := hex
  exact ⟨d, mem_joinWith _ _ (pyCapitalize t)
    (List.mem_map.mpr ⟨t, ht, rfl⟩) d hd, hdlat⟩

theorem inits_elems (f : String) :
    ∀ i ∈ (pySplitWS (replaceChar '-' ' ' f.data)).filterMap
      (fun t => match t with
        | [] => none
        | c :: _ => some (upperChar c)),
      upperChar i = i ∧ ¬ isSpaceC i = true ∧ i ≠ '-' := by
  intro i hi
  obtain ⟨t, ht, hit⟩ := List.mem_filterMap.mp hi
  obtain ⟨g1, g2, g3⟩ := surnameTokens_clean f.data t ht
  cases t with
  | nil => exact absurd rfl g1
  | cons c r =>
    simp only [Option.some.injEq] at hit
    subst hit
    refine ⟨upperChar_idem c, ?_, ?_⟩
    · rw [isSpaceC_upperChar]
      exact g2 c (by simp)
    · intro hcon
      exact g3 c (by simp) (upperChar_eq_hyphen_iff.mp hcon)

theorem normInitials_idem (f : String) :
    normInitials ⟨normInitials f⟩ = normInitials f := by
  have hel := inits_elems f
  set inits := (pySplitWS (replaceChar '-' ' ' f.data)).filterMap
    (fun t => match t with
      | [] => none
      | c :: _ => some (upperChar c)) with hinits
  have hsingles : ∀ p ∈ inits.map (fun c => [c]), p ≠ [] ∧
      ∀ c ∈ p, ¬ isSpaceC c = true := by
    intro p hp
    obtain ⟨i, hiM, hip⟩ := List.mem_map.mp hp
    subst hip
    exact ⟨by simp, fun c hc => by
      rw [List.mem_singleton] at hc
      rw [hc]
      exact (hel i hiM).2.1⟩
  have hrep : replaceChar '-' ' ' (normInitials f) = normInitials f := by
    apply replaceChar_self_of_not_mem
    intro c hc
    rcases joinWith_chars _ _ _ hc with ⟨p, hp, hcp⟩ | h
    · obtain ⟨i, hiM, hip⟩ := List.mem_map.mp hp
      subst hip
      rw [List.mem_singleton] at hcp
      rw [hcp]
      exact (hel i hiM).2.2
    · simp at h
      subst h
      decide
  show joinWith [' ']
      (((pySplitWS (replaceChar '-' ' ' (normInitials f))).filterMap
        (fun t => match t with
          | [] => none
          | c :: _ => some (upperChar c))).map (fun c => [c]))
    = normInitials f
  rw [hrep]
  show joinWith [' ']
      (((pySplitWS (joinWith [' '] (inits.map (fun c => [c])))).filterMap
        (fun t => match t with
          | [] => none
          | c :: _ => some (upperChar c))).map (fun c => [c]))
    = normInitials f
  rw [splitWS_join _ hsingles]
  rw [List.filterMap_map]
  have hfm : inits.filterMap
      ((fun t => match t with
        | [] => none
        | c :: _ => some (upperChar c)) ∘ fun c => [c]) = inits.map upperChar := by
    rw [show ((fun t => match t with
        | ([] : List Char) => none
        | c :: _ => some (upperChar c)) ∘ fun c => [c]) =
      fun c => some (upperChar c) from rfl]
    exact List.filterMap_eq_map upperChar ▸ rfl
  rw [hfm]
  have : inits.map upperChar = inits :=
    (List.map_congr_left fun i hi => (hel i hi).1).trans (List.map_id inits)
  rw [this]
  rfl

theorem normInitials_ne_nil_iff (f : String) :
    (normInitials f ≠ []) ↔ hasInitials f = true := by
  unfold normInitials hasInitials
  rcases hL : (pySplitWS (replaceChar '-' ' ' f.data)).filterMap
      (fun t => match t with
        | [] => none
        | c :: _ => some (upperChar c)) with _ | ⟨i, rest⟩
  · rw [hL]
    simp [joinWith]
  · rw [hL]
    cases rest with
    | nil => simp [joinWith]
    | cons j r => simp [joinWith]

theorem format_name_latin (l : String) (fst : Option String)
    (hlat : l.data.any isLatinChar = true) :
    Author.format_name ⟨l, fst, false⟩ =
      (match fst with
      | none => (⟨normSurname l⟩ : String)
      | some f =>
        if f = "" then ⟨normSurname l⟩
        else if hasInitials f then ⟨normSurname l ++ [' '] ++ normInitials f⟩
        else ⟨normSurname l⟩) := by
  unfold Author.format_name Author._is_latin
  simp [hlat]

/-- C9 (amended): `format_name` is idempotent on the Latin rendering of a
non-organization author: rebuilding an Author from the normalised
surname and space-joined initials and re-running `format_name` yields
the identical string. -/
theorem c9_format_name_idempotent (a : Author)
    (horg : a.is_organization = false) (hlat : a._is_latin = true) :
    Author.format_name (roundTripAuthor a) = Author.format_name a := by
  obtain ⟨last, first, org⟩ := a
  have hlat' : last.data.any isLatinChar = true := hlat
  subst horg
  have hlat2 : (⟨normSurname last⟩ : String).data.any isLatinChar = true :=
    normSurname_latin hlat'
  unfold roundTripAuthor
  rw [format_name_latin _ _ hlat2, format_name_latin _ _ hlat']
  cases first with
  | none =>
    show (⟨normSurname ⟨normSurname last⟩⟩ : String) = ⟨normSurname last⟩
    rw [normSurname_idem]
  | some f =>
    by_cases hf : f = ""
    · subst hf
      show (⟨normSurname ⟨normSurname last⟩⟩ : String) = _
      rw [normSurname_idem]
      rfl
    · by_cases hi : hasInitials f = true
      · show (match (if hasInitials f = true then some (⟨normInitials f⟩ : String)
            else none) with
          | none => (⟨normSurname ⟨normSurname last⟩⟩ : String)
          | some g =>
            if g = "" then ⟨normSurname ⟨normSurname last⟩⟩
            else if hasInitials g then
              ⟨normSurname ⟨normSurname last⟩ ++ [' '] ++ normInitials g⟩
            else ⟨normSurname ⟨normSurname last⟩⟩) = _
        rw [if_pos hi]
        have hne : normInitials f ≠ [] := (normInitials_ne_nil_iff f).mpr hi
        have hne' : (⟨normInitials f⟩ : String) ≠ "" := by
          intro hcon
          exact hne (congrArg String.data hcon)
        have hhi : hasInitials ⟨normInitials f⟩ = true := by
          rw [← normInitials_ne_nil_iff, normInitials_idem]
          exact hne
        show (if (⟨normInitials f⟩ : String) = "" then
            (⟨normSurname ⟨normSurname last⟩⟩ : String)
          else if hasInitials ⟨normInitials f⟩ then
            ⟨normSurname ⟨normSurname last⟩ ++ [' '] ++ normInitials ⟨normInitials f⟩⟩
          else ⟨normSurname ⟨normSurname last⟩⟩) = _
        rw [if_neg hne', if_pos hhi, normSurname_idem, normInitials_idem]
        show (⟨normSurname last ++ [' '] ++ normInitials f⟩ : String) =
          (if f = "" then (⟨normSurname last⟩ : String)
           else if hasInitials f = true then
             ⟨normSurname last ++ [' '] ++ normInitials f⟩
           else ⟨normSurname last⟩)
        rw [if_neg hf, if_pos hi]
      · show (match (if hasInitials f = true then some (⟨normInitials f⟩ : String)
            else none) with
          | none => (⟨normSurname ⟨normSurname last⟩⟩ : String)
          | some g =>
            if g = "" then ⟨normSurname ⟨normSurname last⟩⟩
            else if hasInitials g then
              ⟨normSurname ⟨normSurname last⟩ ++ [' '] ++ normInitials g⟩
            else ⟨normSurname ⟨normSurname last⟩⟩) = _
        rw [if_neg hi]
        show (⟨normSurname ⟨normSurname last⟩⟩ : String) = _
        rw [normSurname_idem]
        show (⟨normSurname last⟩ : String) =
          (if f = "" then (⟨normSurname last⟩ : String)
           else if hasInitials f = true then
             ⟨normSurname last ++ [' '] ++ normInitials f⟩
           else ⟨normSurname last⟩)
        rw [if_neg hf, if_neg hi]

/-- Witness for C9 at a concrete author: a compound lowercase surname
with hyphenated given name normalises to `Van Der Berg B L`, and the
round trip reproduces it. -/
theorem c9_format_name_idempotent_witness :
    (⟨"van der berg", some "bo-liang", false⟩ : Author).is_organization = false ∧
    Author._is_latin ⟨"van der berg", some "bo-liang", false⟩ = true ∧
    Author.format_name (roundTripAuthor ⟨"van der berg", some "bo-liang", false⟩)
      = Author.format_name ⟨"van der berg", some "bo-liang", false⟩ ∧
    Author.format_name ⟨"van der berg", some "bo-liang", false⟩
      = "Van Der Berg B L" :=
  ⟨rfl, by decide, c9_format_name_idempotent _ rfl (by decide), by decide⟩

theorem listStartsWith_singleton {a c : Char} {r : List Char} :
    listStartsWith [a] (c :: r) = decide (c = a) := by
  show decide ([c] = [a]) = decide (c = a)
  exact decide_eq_decide.mpr (by simp)

theorem containsSub_singleton_iff {a : Char} {l : List Char} :
    containsSub [a] l = true ↔ a ∈ l := by
  induction l with
  | nil =>
    show (decide ([a] = []) = true) ↔ a ∈ ([] : List Char)
    simp
  | cons c r ih =>
    unfold containsSub
    rw [listStartsWith_singleton]
    simp only [Bool.or_eq_true, decide_eq_true_eq, ih, List.mem_cons]
    constructor
    · rintro (h | h)
      exacts [Or.inl h.symm, Or.inr h]
    · rintro (h | h)
      exacts [Or.inl h.symm, Or.inr h]

theorem splitFirstSub_isSome_iff {pat l : List Char} :
    (splitFirstSub pat l).isSome = containsSub pat l := by
  induction l with
  | nil =>
    unfold splitFirstSub containsSub
    by_cases h : pat = []
    · rw [if_pos h]
      simp [h]
    · rw [if_neg h]
      simp [h]
  | cons c r ih =>
    unfold splitFirstSub containsSub
    by_cases h : listStartsWith pat (c :: r) = true
    · rw [if_pos h, h]
      rfl
    · simp only [Bool.not_eq_true] at h
      rw [if_neg (by rw [h]; simp)]
      rw [h, Bool.false_or]
      rw [← ih]
      cases hsp : splitFirstSub pat r with
      | none => rfl
      | some kv =>
        obtain ⟨a, b⟩ := kv
        rfl

theorem segParse_isSome (buf : List Char) :
    (segParse buf).isSome = containsSub ['='] buf := by
  unfold segParse
  rw [← splitFirstSub_isSome_iff]
  cases splitFirstSub ['='] buf with
  | none => rfl
  | some kv =>
    obtain ⟨a, b⟩ := kv
    rfl

theorem mem_dropWhile_of_not {p : Char → Bool} {a : Char} {l : List Char}
    (ha : a ∈ l) (hp : ¬ p a = true) : a ∈ l.dropWhile p := by
  induction l with
  | nil => simp at ha
  | cons c r ih =>
    rw [List.dropWhile_cons]
    by_cases h : p c = true
    · rw [if_pos h]
      rcases List.mem_cons.mp ha with h1 | h2
      · subst h1; exact absurd h hp
      · exact ih h2
    · rw [if_neg h]
      exact ha

theorem mem_pyStrip_of_not_space {a : Char} {l : List Char}
    (ha : a ∈ l) (hp : ¬ isSpaceC a = true) : a ∈ pyStrip l := by
  unfold pyStrip rstripBy
  rw [List.mem_reverse]
  apply mem_dropWhile_of_not _ hp
  rw [List.mem_reverse]
  exact mem_dropWhile_of_not ha hp

theorem pyStrip_ne_nil_of_eq_mem {buf : List Char}
    (h : containsSub ['='] buf = true) : pyStrip buf ≠ [] := by
  have hm : '=' ∈ buf := containsSub_singleton_iff.mp h
  have : '=' ∈ pyStrip buf := mem_pyStrip_of_not_space hm (by decide)
  intro hcon
  rw [hcon] at this
  simp at this

theorem segStep_eq (buf : List Char) (fields : List (List Char × List Char)) :
    (if containsSub ['='] buf = true then
       match segParse buf with
       | some (k, v) => dictInsert k v fields
       | none => fields
     else fields) =
    (match segParse buf with
     | some (k, v) => dictInsert k v fields
     | none => fields) := by
  by_cases h : containsSub ['='] buf = true
  · rw [if_pos h]
  · rw [if_neg h]
    have hnone : segParse buf = none := by
      have := segParse_isSome buf
      rcases hs : segParse buf with _ | kv
      · rfl
      · rw [hs] at this
        simp only [Option.isSome_some] at this
        exact absurd this.symm h
    rw [hnone]

theorem segStepFinal_eq (buf : List Char) (fields : List (List Char × List Char)) :
    (if pyStrip buf ≠ [] ∧ containsSub ['='] buf = true then
       match segParse buf with
       | some (k, v) => dictInsert k v fields
       | none => fields
     else fields) =
    (match segParse buf with
     | some (k, v) => dictInsert k v fields
     | none => fields) := by
  by_cases h : containsSub ['='] buf = true
  · rw [if_pos ⟨pyStrip_ne_nil_of_eq_mem h, h⟩]
  · rw [if_neg (by tauto)]
    have hnone : segParse buf = none := by
      have := segParse_isSome buf
      rcases hs : segParse buf with _ | kv
      · rfl
      · rw [hs] at this
        simp only [Option.isSome_some] at this
        exact absurd this.symm h
    rw [hnone]

/-- The brace-depth scanner equals: split the body at depth-0 commas,
then fold the parsed segments into the dictionary. -/
theorem bibtexFieldsGo_eq (l : List Char) :
    ∀ (buf : List Char) (d : Nat) (fields : List (List Char × List Char)),
      bibtexFieldsGo l buf d fields =
        (splitTopLevelGo d l buf.reverse).foldl
          (fun fs s =>
            match segParse s with
            | some (k, v) => dictInsert k v fs
            | none => fs) fields := by
  induction l with
  | nil =>
    intro buf d fields
    unfold bibtexFieldsGo splitTopLevelGo
    simp only [List.reverse_reverse, List.foldl_cons, List.foldl_nil]
    exact segStepFinal_eq buf fields
  | cons ch rest ih =>
    intro buf d fields
    unfold bibtexFieldsGo splitTopLevelGo
    have hdepth : (if ch = lbrace then d + 1 else if ch = rbrace then d - 1 else d)
        = depthAdj d ch := rfl
    rw [hdepth]
    by_cases hc : ch = ',' ∧ depthAdj d ch = 0
    · rw [if_pos hc, if_pos hc]
      simp only [List.reverse_reverse, List.foldl_cons]
      rw [ih [] (depthAdj d ch)]
      congr 1
      exact segStep_eq buf fields
    · rw [if_neg hc, if_neg hc]
      rw [ih (buf ++ [ch]) (depthAdj d ch)]
      congr 1
      simp

/-- `bibtexFields` as split-then-parse. -/
theorem bibtexFields_eq_segs (body : List Char) :
    bibtexFields body = segsToFields (splitTopLevel body) := by
  unfold bibtexFields segsToFields splitTopLevel
  have h := bibtexFieldsGo_eq body [] 0 []
  simpa using h

theorem dropWhile_append_all {p : Char → Bool} {w x : List Char}
    (h : ∀ c ∈ w, p c = true) : (w ++ x).dropWhile p = x.dropWhile p := by
  induction w with
  | nil => rfl
  | cons c r ih =>
    rw [List.cons_append, List.dropWhile_cons, if_pos (h c (by simp))]
    exact ih fun d hd => h d (by simp [hd])

theorem dropWhile_cons_neg {p : Char → Bool} {c : Char} {x : List Char}
    (h : ¬ p c = true) : (c :: x).dropWhile p = c :: x := by
  rw [List.dropWhile_cons, if_neg h]

theorem rstripBy_append_all {p : Char → Bool} {w x : List Char}
    (h : ∀ c ∈ w, p c = true) : rstripBy p (x ++ w) = rstripBy p x := by
  unfold rstripBy
  rw [List.reverse_append, dropWhile_append_all fun c hc => h c (by simpa using hc)]

theorem rstripBy_concat_neg {p : Char → Bool} {a : Char} {x : List Char}
    (h : ¬ p a = true) : rstripBy p (x ++ [a]) = x ++ [a] := by
  unfold rstripBy
  rw [List.reverse_append]
  show ((a :: x.reverse).dropWhile p).reverse = x ++ [a]
  rw [dropWhile_cons_neg h]
  simp

theorem stripBy_noop_braced {p : Char → Bool} (hl : ¬ p lbrace = true)
    (hr : ¬ p rbrace = true) (inner : List Char) :
    rstripBy p (([lbrace] ++ inner ++ [rbrace]).dropWhile p)
      = [lbrace] ++ inner ++ [rbrace] := by
  rw [show [lbrace] ++ inner ++ [rbrace] = lbrace :: (inner ++ [rbrace]) by simp]
  rw [dropWhile_cons_neg hl]
  rw [show lbrace :: (inner ++ [rbrace]) = (lbrace :: inner) ++ [rbrace] by simp]
  rw [rstripBy_concat_neg hr]

/-- `_strip_braces` on a whitespace-surrounded braced value is the inner
text stripped — the code trims LEADING whitespace too, then removes the
brace layer, then strips again. -/
theorem strip_braces_wrapped (w1 w2 inner : List Char)
    (h1 : ∀ c ∈ w1, isSpaceC c = true) (h2 : ∀ c ∈ w2, isSpaceC c = true) :
    _strip_braces (w1 ++ [lbrace] ++ inner ++ [rbrace] ++ w2) = pyStrip inner := by
  have hcore : pyStrip (w1 ++ [lbrace] ++ inner ++ [rbrace] ++ w2)
      = [lbrace] ++ inner ++ [rbrace] := by
    unfold pyStrip
    rw [List.append_assoc, List.append_assoc, List.append_assoc,
      dropWhile_append_all h1]
    show rstripBy isSpaceC
      (([lbrace] ++ (inner ++ ([rbrace] ++ w2))).dropWhile isSpaceC) = _
    rw [show ([lbrace] ++ (inner ++ ([rbrace] ++ w2))) =
      lbrace :: (inner ++ ([rbrace] ++ w2)) from rfl]
    rw [dropWhile_cons_neg (by decide)]
    rw [show lbrace :: (inner ++ ([rbrace] ++ w2)) =
      ((lbrace :: inner) ++ [rbrace]) ++ w2 by simp]
    rw [rstripBy_append_all h2, rstripBy_concat_neg (by decide)]
    simp
  have hmid : pyStrip (pyStripBy (fun c => c = ',')
      (pyStrip (w1 ++ [lbrace] ++ inner ++ [rbrace] ++ w2)))
      = [lbrace] ++ inner ++ [rbrace] := by
    rw [hcore]
    unfold pyStripBy
    rw [stripBy_noop_braced (by decide) (by decide)]
    unfold pyStrip
    rw [stripBy_noop_braced (by decide) (by decide)]
  have hstart : listStartsWith [lbrace] ([lbrace] ++ inner ++ [rbrace]) = true := by
    rw [show [lbrace] ++ inner ++ [rbrace] = lbrace :: (inner ++ [rbrace]) by simp]
    unfold listStartsWith
    simp [List.take]
  have hend : endsWithC rbrace ([lbrace] ++ inner ++ [rbrace]) = true := by
    unfold endsWithC
    rw [show [lbrace] ++ inner ++ [rbrace] = (lbrace :: inner) ++ [rbrace] by simp]
    rw [List.getLast?_concat]
    simp
  unfold _strip_braces
  rw [hmid, if_pos (Or.inl ⟨hstart, hend⟩)]
  rw [show ([lbrace] ++ inner ++ [rbrace]).drop 1 = inner ++ [rbrace] by simp]
  rw [show (inner ++ [rbrace]).dropLast = inner from by simp]

/-- C5 (amended): the BibTeX field scan equals splitting the body at
depth-0 commas (depth up on `{`, down floored at 0 on `}`) and parsing
each `field=value` segment at its first `=`; and the value processing
trims whitespace and commas from BOTH ends (not only trailing) before
and after removing exactly one surrounding layer of braces/quotes. -/
theorem c5_scan_and_strip :
    (∀ body : List Char, bibtexFields body = segsToFields (splitTopLevel body)) ∧
    (∀ w1 w2 inner : List Char, (∀ c ∈ w1, isSpaceC c = true) →
      (∀ c ∈ w2, isSpaceC c = true) →
      _strip_braces (w1 ++ [lbrace] ++ inner ++ [rbrace] ++ w2) = pyStrip inner) :=
  ⟨bibtexFields_eq_segs, strip_braces_wrapped⟩

/-- Witness for C5 at a concrete body and a concrete wrapped value. -/
theorem c5_scan_and_strip_witness :
    bibtexFields "title = \x7bA, B\x7d, year = 2020".data
      = segsToFields (splitTopLevel "title = \x7bA, B\x7d, year = 2020".data) ∧
    _strip_braces (" ".data ++ [lbrace] ++ "x y".data ++ [rbrace] ++ " ".data)
      = pyStrip "x y".data :=
  ⟨c5_scan_and_strip.1 _,
    c5_scan_and_strip.2 " ".data " ".data "x y".data (by decide) (by decide)⟩

/-- C3 (amended): an Entry's title is whatever the construction supplies
and may be empty — the BibTeX parser always supplies the stripped
`title` field of its field dictionary, defaulting to the empty string
when the field is absent; no validation rejects emptiness. -/
theorem c3_bibtex_title_provenance (raw : String) (e : Entry)
    (h : _parse_bibtex raw = .ok e) :
    e.title = ⟨pyStrip (dictGetD "title".data (bibtexFieldsOf raw) [])⟩ := by
  unfold bibtexFieldsOf
  rcases htop : bibtexTop (pyStrip raw.data) with _ | ⟨typ, body⟩
  · simp only [_parse_bibtex, htop] at h
    exact absurd h (by simp)
  · simp only [_parse_bibtex, htop] at h
    split_ifs at h <;>
      (rw [Except.ok.injEq] at h; subst h; rfl)

/-- Witness for C3's amended claim: the BibTeX entry without a title
yields the (empty) stripped title-field default. -/
theorem c3_bibtex_title_provenance_witness :
    (Entry.web ⟨"", [], none, "zh", "u", none, none, none⟩).title
      = ⟨pyStrip (dictGetD "title".data
          (bibtexFieldsOf "@misc\x7bk, url=\x7bu\x7d\x7d") [])⟩ ∧
    (⟨pyStrip (dictGetD "title".data
        (bibtexFieldsOf "@misc\x7bk, url=\x7bu\x7d\x7d") [])⟩ : String) = "" :=
  ⟨c3_bibtex_title_provenance _ _ rfl, by decide⟩

theorem listStartsWith_decomp {pat l : List Char}
    (h : listStartsWith pat l = true) : l = pat ++ l.drop pat.length := by
  unfold listStartsWith at h
  rw [decide_eq_true_eq] at h
  conv_lhs => rw [← List.take_append_drop pat.length l]
  rw [h]

theorem containsSub_iff {q l : List Char} :
    containsSub q l = true ↔ ∃ a b, l = a ++ q ++ b := by
  induction l with
  | nil =>
    show (decide (q = []) = true) ↔ _
    simp only [decide_eq_true_eq]
    constructor
    · intro h
      exact ⟨[], [], by simp [h]⟩
    · rintro ⟨a, b, hab⟩
      have := congrArg List.length hab
      simp at this
      exact List.length_eq_zero.mp (by omega)
  | cons c r ih =>
    unfold containsSub
    simp only [Bool.or_eq_true, ih]
    constructor
    · rintro (h | ⟨a, b, hab⟩)
      · exact ⟨[], (c :: r).drop q.length, by simpa using listStartsWith_decomp h⟩
      · exact ⟨c :: a, b, by simp [hab]⟩
    · rintro ⟨a, b, hab⟩
      cases a with
      | nil =>
        left
        unfold listStartsWith
        rw [decide_eq_true_eq]
        simp only [List.nil_append] at hab
        rw [hab]
        exact List.take_left q b
      | cons a0 a' =>
        right
        refine ⟨a', b, ?_⟩
        simpa using congrArg List.tail hab

theorem rmCore_decomp {u X : List Char} (h : rmCore u = some X) :
    ∃ v, u = X ++ v := by
  unfold rmCore at h
  by_cases hc : u.takeWhile (· ≠ '\n') ≠ [] ∧
      (u.drop (u.takeWhile (· ≠ '\n')).length = [] ∨
       u.drop (u.takeWhile (· ≠ '\n')).length = ['\n'])
  · rw [if_pos hc, Option.some.injEq] at h
    subst h
    exact ⟨u.dropWhile (· ≠ '\n'), (List.takeWhile_append_dropWhile _ _).symm⟩
  · rw [if_neg hc] at h
    exact absurd h (by simp)

theorem rmGo_decomp {u X : List Char} :
    ∀ k, rmGo u k = some X → ∃ w v, u = w ++ X ++ v := by
  intro k
  induction k with
  | zero =>
    intro h
    obtain ⟨v, hv⟩ := rmCore_decomp h
    exact ⟨[], v, by simpa using hv⟩
  | succ n ih =>
    intro h
    unfold rmGo at h
    rcases hc : rmCore (u.drop (n + 1)) with _ | Y
    · rw [hc] at h
      exact ih h
    · rw [hc] at h
      rw [Option.some.injEq] at h
      subst h
      obtain ⟨v, hv⟩ := rmCore_decomp hc
      exact ⟨u.take (n + 1), v, by
        rw [List.append_assoc, ← hv, List.take_append_drop]⟩

theorem preTitleGo_decomp :
    ∀ (rem acc A rest : List Char), preTitleGo acc rem = some (A, rest) →
      ∃ w v, rem = w ++ rest ++ v := by
  intro rem
  induction rem with
  | nil => intro acc A rest h; simp [preTitleGo] at h
  | cons c rs ih =>
    intro acc A rest h
    unfold preTitleGo at h
    by_cases h1 : c = '\n'
    · rw [if_pos h1] at h
      simp at h
    · rw [if_neg h1] at h
      by_cases h2 : c = '.' ∧ acc ≠ []
      · rw [if_pos h2] at h
        rcases hrm : restMatch rs with _ | X
        · rw [hrm] at h
          obtain ⟨w, v, hwv⟩ := ih (c :: acc) A rest h
          exact ⟨c :: w, v, by simp [hwv]⟩
        · rw [hrm, Option.some.injEq, Prod.mk.injEq] at h
          obtain ⟨w, v, hwv⟩ := rmGo_decomp _ hrm
          exact ⟨c :: w, v, by rw [← h.2]; simp [hwv]⟩
      · rw [if_neg h2] at h
        obtain ⟨w, v, hwv⟩ := ih (c :: acc) A rest h
        exact ⟨c :: w, v, by simp [hwv]⟩

theorem markerScanGo_sound (pat : List Char) (cont : List Char → Option (List Char)) :
    ∀ (rem acc t r : List Char), markerScanGo pat cont acc rem = some (t, r) →
      ∃ x y, rem = x ++ pat ++ y ∧ (cont y).isSome = true := by
  intro rem
  induction rem with
  | nil => intro acc t r h; simp [markerScanGo] at h
  | cons c rs ih =>
    intro acc t r h
    unfold markerScanGo at h
    by_cases h1 : listStartsWith pat (c :: rs) = true ∧ acc ≠ []
    · rw [if_pos h1] at h
      rcases hc : cont ((c :: rs).drop pat.length) with _ | Y
      · rw [hc] at h
        obtain ⟨x, y, hxy, hy⟩ := ih _ t r h
        exact ⟨c :: x, y, by simp [hxy], hy⟩
      · rw [hc] at h
        refine ⟨[], (c :: rs).drop pat.length, by simpa using listStartsWith_decomp h1.1,
          by rw [hc]; rfl⟩
    · rw [if_neg h1] at h
      obtain ⟨x, y, hxy, hy⟩ := ih _ t r h
      exact ⟨c :: x, y, by simp [hxy], hy⟩

theorem cCont_contains_slashes {y : List Char} (h : (cCont y).isSome = true) :
    ∃ a b, y = a ++ "//".data ++ b := by
  have key : ∀ u1 : List Char, u1 <:+ y →
      listStartsWith "//".data (u1.dropWhile isSpaceC) = true →
      ∃ a b, y = a ++ "//".data ++ b := by
    intro u1 hsuf hs
    have hd : u1.dropWhile isSpaceC <:+ y :=
      (List.dropWhile_suffix _).trans hsuf
    obtain ⟨w, hw⟩ := hd
    refine ⟨w, (u1.dropWhile isSpaceC).drop "//".data.length, ?_⟩
    rw [← hw]
    conv_lhs => rw [listStartsWith_decomp hs]
    rw [List.append_assoc]
  unfold cCont at h
  by_cases hh : y.head? = some '.'
  · rw [if_pos hh] at h
    by_cases hs : listStartsWith "//".data (y.tail.dropWhile isSpaceC) = true
    · exact key y.tail (List.tail_suffix y) hs
    · rw [if_neg hs] at h
      simp at h
  · rw [if_neg hh] at h
    by_cases hs : listStartsWith "//".data (y.dropWhile isSpaceC) = true
    · exact key y List.suffix_rfl hs
    · rw [if_neg hs] at h
      simp at h

theorem splitFirstSub_startsWith {pat l : List Char}
    (h : listStartsWith pat l = true) :
    splitFirstSub pat l = some ([], l.drop pat.length) := by
  cases l with
  | nil =>
    have hp : pat = [] := by
      unfold listStartsWith at h
      rw [decide_eq_true_eq] at h
      simpa using h.symm
    subst hp
    rfl
  | cons c r =>
    unfold splitFirstSub
    rw [if_pos h]

theorem containsSub_of_suffix {q s l : List Char} (hs : s <:+ l)
    (h : containsSub q s = true) : containsSub q l = true := by
  rw [containsSub_iff] at h ⊢
  obtain ⟨a, b, hab⟩ := h
  obtain ⟨w, hw⟩ := hs
  exact ⟨w ++ a, b, by rw [← hw, hab]; simp⟩

theorem suffix_drop_of_le {b l : List Char} (hs : b <:+ l) (k : Nat)
    (hk : k + b.length ≤ l.length) : b <:+ l.drop k := by
  obtain ⟨w, hw⟩ := hs
  have hlen : k ≤ w.length := by
    have := congrArg List.length hw
    simp at this
    omega
  refine ⟨w.drop k, ?_⟩
  rw [← hw, List.drop_append_eq_append_drop, Nat.sub_eq_zero_of_le hlen,
    List.drop_zero]

theorem afterFirstSub_contains (pat q : List Char) :
    ∀ a b : List Char, containsSub q b = true →
      containsSub q (afterFirstSub pat (a ++ pat ++ b)) = true := by
  intro a
  induction a with
  | nil =>
    intro b hb
    unfold afterFirstSub
    rw [show ([] : List Char) ++ pat ++ b = pat ++ b by simp]
    rw [splitFirstSub_startsWith (by
      unfold listStartsWith
      rw [decide_eq_true_eq]
      exact List.take_left pat b)]
    rw [List.drop_left]
    exact hb
  | cons c a' ih =>
    intro b hb
    rw [show (c :: a') ++ pat ++ b = c :: (a' ++ pat ++ b) by simp]
    unfold afterFirstSub splitFirstSub
    by_cases h : listStartsWith pat (c :: (a' ++ pat ++ b)) = true
    · rw [if_pos h]
      show containsSub q ((c :: (a' ++ pat ++ b)).drop pat.length) = true
      refine containsSub_of_suffix (suffix_drop_of_le ⟨c :: a' ++ pat, by simp⟩
        pat.length (by simp; omega)) hb
    · rw [if_neg h]
      have hsome : (splitFirstSub pat (a' ++ pat ++ b)).isSome = true := by
        rw [splitFirstSub_isSome_iff, containsSub_iff]
        exact ⟨a', b, rfl⟩
      rcases hsp : splitFirstSub pat (a' ++ pat ++ b) with _ | ⟨x, y⟩
      · rw [hsp] at hsome
        simp at hsome
      · show containsSub q y = true
        have hy : afterFirstSub pat (a' ++ pat ++ b) = y := by
          unfold afterFirstSub
          rw [hsp]
        have := ih b hb
        rw [hy] at this
        exact this

/-- C8: a string dispatched to the `[C]` grammar whose text after the
first `[C]` marker contains no `//` makes `parse_reference` raise a
grammar-specific parse failure; it neither falls through to another
grammar nor returns an Entry. -/
theorem c8_conference_missing_separator (raw : String)
    (hb : ¬ listStartsWith ['@'] (pyLstrip raw.data) = true)
    (hm : findMarker (pyStrip raw.data) = some .C)
    (hs : containsSub "//".data
      (afterFirstSub "[C]".data (pyStrip raw.data)) = false) :
    ∃ msg, parse_reference raw = .error msg := by
  have hstep : parse_reference raw =
      (match preTitle (pyStrip raw.data) with
       | none => .error "无法解析作者与题名分界（缺少句点）"
       | some (authorsRaw, rest) => cBranch (_split_authors authorsRaw) rest) := by
    unfold parse_reference
    rw [if_neg hb]
    simp only [hm]
  rcases hpt : preTitle (pyStrip raw.data) with _ | ⟨A, rest⟩
  · rw [hstep, hpt]
    exact ⟨_, rfl⟩
  · rw [hstep, hpt]
    show ∃ msg, cBranch (_split_authors A) rest = .error msg
    unfold cBranch
    rcases hms : markerScanGo "[C]".data cCont [] rest with _ | ⟨t, r⟩
    · exact ⟨_, rfl⟩
    · exfalso
      obtain ⟨x, y, hxy, hy⟩ := markerScanGo_sound _ _ rest [] t r hms
      obtain ⟨a2, b2, hab⟩ := cCont_contains_slashes hy
      obtain ⟨w, v, hwv⟩ := preTitleGo_decomp (pyStrip raw.data) [] A rest hpt
      have htext : pyStrip raw.data = (w ++ x) ++ "[C]".data ++ (y ++ v) := by
        rw [hwv, hxy]
        simp
      have hyv : containsSub "//".data (y ++ v) = true :=
        containsSub_iff.mpr ⟨a2, b2 ++ v, by rw [hab]; simp⟩
      have htrue : containsSub "//".data
          (afterFirstSub "[C]".data (pyStrip raw.data)) = true := by
        rw [htext]
        exact afterFirstSub_contains _ _ _ _ hyv
      rw [htrue] at hs
      exact absurd hs (by simp)

/-- Witness for C8: `Liu J. A study[C]. Proc, 2020` (no `//`) raises. -/
theorem c8_conference_missing_separator_witness :
    (¬ listStartsWith ['@']
      (pyLstrip "Liu J. A study[C]. Proc, 2020".data) = true) ∧
    findMarker (pyStrip "Liu J. A study[C]. Proc, 2020".data) = some .C ∧
    containsSub "//".data (afterFirstSub "[C]".data
      (pyStrip "Liu J. A study[C]. Proc, 2020".data)) = false ∧
    ∃ msg, parse_reference "Liu J. A study[C]. Proc, 2020" = .error msg :=
  ⟨by decide, by decide, by decide,
    c8_conference_missing_separator _ (by decide) (by decide) (by decide)⟩

/-! ## C7 support: scanner skip lemmas and the tail-grammar schema -/

/-- A list all of whose elements satisfy `p` is its own `takeWhile`. -/
theorem takeWhile_all {p : Char → Bool} {l : List Char}
    (h : ∀ c ∈ l, p c = true) : l.takeWhile p = l := by
  induction l with
  | nil => rfl
  | cons a r ih =>
    rw [List.takeWhile_cons, h a (by simp)]
    simp [ih fun c hc => h c (by simp [hc])]

/-- `takeWhile` passes over a prefix all of whose elements satisfy `p`. -/
theorem takeWhile_append_all {p : Char → Bool} {w x : List Char}
    (hw : ∀ c ∈ w, p c = true) :
    (w ++ x).takeWhile p = w ++ x.takeWhile p := by
  induction w with
  | nil => rfl
  | cons a r ih =>
    rw [List.cons_append, List.takeWhile_cons, hw a (by simp)]
    simp only [if_true]
    rw [ih fun c hc => hw c (by simp [hc]), List.cons_append]

theorem length_dropWhile_le (p : Char → Bool) (l : List Char) :
    (l.dropWhile p).length ≤ l.length := by
  induction l with
  | nil => simp
  | cons a r ih =>
    rw [List.dropWhile_cons]
    by_cases h : p a = true
    · simp only [h, if_true]; exact Nat.le_trans ih (by simp)
    · simp [h]

theorem length_rstripBy_le (p : Char → Bool) (l : List Char) :
    (rstripBy p l).length ≤ l.length := by
  unfold rstripBy
  rw [List.length_reverse]
  calc (l.reverse.dropWhile p).length ≤ l.reverse.length :=
        length_dropWhile_le p l.reverse
    _ = l.length := List.length_reverse l

/-- A nonempty list fixed by `pyStrip` starts with a non-space character. -/
theorem head_nonspace_of_pyStrip {c : Char} {r : List Char}
    (h : pyStrip (c :: r) = c :: r) : isSpaceC c = false := by
  by_contra hb
  have hc : isSpaceC c = true := by
    cases hx : isSpaceC c
    · exact absurd hx hb
    · rfl
  have h1 : pyStrip (c :: r) = rstripBy isSpaceC (r.dropWhile isSpaceC) := by
    unfold pyStrip
    rw [List.dropWhile_cons, hc, if_pos rfl]
  have h2 : (pyStrip (c :: r)).length ≤ r.length :=
    h1 ▸ Nat.le_trans (length_rstripBy_le _ _) (length_dropWhile_le _ _)
  rw [h] at h2
  simp at h2

/-- A character with `isDigitC` is not a space. -/
theorem isDigitC_not_space {c : Char} (h : isDigitC c = true) :
    isSpaceC c = false := by
  cases hx : isSpaceC c
  · rfl
  · exfalso
    have hs := isSpaceC_iff_toNat.mp hx
    have hd : 48 ≤ c.toNat ∧ c.toNat ≤ 57 := by
      unfold isDigitC at h
      simpa using h
    omega

theorem isDigitC_ne {c x : Char} (h : isDigitC c = true)
    (hx : isDigitC x = false) : c ≠ x := by
  intro he; rw [he] at h; rw [h] at hx; exact absurd hx (by simp)

/-- `lowerChar` maps nothing to a given lowercase letter except the letter
itself and its uppercase partner. -/
theorem lowerChar_ne_d {c : Char} (h1 : c ≠ 'd') (h2 : c ≠ 'D') :
    lowerChar c ≠ 'd' := by
  intro he
  have ht : (lowerChar c).toNat = 100 := by rw [he]; rfl
  rw [lowerChar_toNat] at ht
  have hne1 : c.toNat ≠ 100 := fun hh => h1 (char_eq_iff_toNat.mpr (by rw [hh]; rfl))
  have hne2 : c.toNat ≠ 68 := fun hh => h2 (char_eq_iff_toNat.mpr (by rw [hh]; rfl))
  by_cases hr : 65 ≤ c.toNat ∧ c.toNat ≤ 90
  · rw [if_pos hr] at ht; omega
  · rw [if_neg hr] at ht; omega

/-- A successful `DOI:` window check forces a colon at offset 3. -/
theorem map_take4_doi {l : List Char}
    (h : (l.take 4).map lowerChar = "doi:".data) :
    l.get? 3 = some ':' := by
  have h3 : ((l.take 4).map lowerChar).get? 3 = some ':' := by rw [h]; rfl
  rw [List.get?_map] at h3
  have h4 : (l.take 4).get? 3 = l.get? 3 := List.get?_take (by omega)
  rw [h4] at h3
  cases hx : l.get? 3 with
  | none => rw [hx] at h3; simp at h3
  | some x =>
    rw [hx] at h3
    simp only [Option.map_some'] at h3
    have hlx : lowerChar x = ':' := by
      injection h3
    have ht : (lowerChar x).toNat = 58 := by rw [hlx]; rfl
    rw [lowerChar_toNat] at ht
    have hx58 : x = ':' := by
      rw [char_eq_iff_toNat]
      have h58 : (':').toNat = 58 := rfl
      rw [h58]
      by_cases hr : 65 ≤ x.toNat ∧ x.toNat ≤ 90
      · rw [if_pos hr] at ht; omega
      · rw [if_neg hr] at ht; omega
    rw [hx58]

/-- `doiScan` skips a colon-free prefix when the next three characters also
contain no colon. -/
theorem doiScan_append_nocolon {l1 l2 : List Char}
    (h1 : ∀ c ∈ l1, c ≠ ':') (h2 : ∀ c ∈ l2.take 3, c ≠ ':') :
    doiScan (l1 ++ l2) = doiScan l2 := by
  induction l1 with
  | nil => rfl
  | cons a r ih =>
    have hC : ¬ ((a :: (r ++ l2)).take 4).map lowerChar = "doi:".data := by
      intro hm
      have hx : (r ++ l2).get? 2 = some ':' := map_take4_doi hm
      by_cases hlen : 2 < r.length
      · rw [List.get?_append hlen] at hx
        exact h1 ':' (List.mem_cons_of_mem _ (List.get?_mem hx)) rfl
      · have hge : r.length ≤ 2 := by omega
        rw [List.get?_append_right hge] at hx
        have hm3 : 2 - r.length < 3 := by omega
        have hx2 : (l2.take 3).get? (2 - r.length) = some ':' := by
          rw [List.get?_take hm3]; exact hx
        exact h2 ':' (List.get?_mem hx2) rfl
    show doiScan (a :: (r ++ l2)) = doiScan l2
    simp only [doiScan]
    rw [if_neg hC]
    exact ih fun c hc => h1 c (List.mem_cons_of_mem _ hc)

/-- `doiScan` skips any prefix none of whose characters lowercases to `d`. -/
theorem doiScan_append_nod {l1 l2 : List Char}
    (h1 : ∀ c ∈ l1, lowerChar c ≠ 'd') :
    doiScan (l1 ++ l2) = doiScan l2 := by
  induction l1 with
  | nil => rfl
  | cons a r ih =>
    have hC : ¬ ((a :: (r ++ l2)).take 4).map lowerChar = "doi:".data := by
      intro hm
      rw [List.take_succ_cons, List.map_cons] at hm
      have hm2 : lowerChar a :: ((r ++ l2).take 3).map lowerChar =
          'd' :: 'o' :: 'i' :: ':' :: [] := hm
      have : lowerChar a = 'd' := by injection hm2
      exact h1 a (by simp) this
    show doiScan (a :: (r ++ l2)) = doiScan l2
    simp only [doiScan]
    rw [if_neg hC]
    exact ih fun c hc => h1 c (List.mem_cons_of_mem _ hc)

/-- `pagesScan` skips a colon-free prefix. -/
theorem pagesScan_append_nocolon {l1 l2 : List Char}
    (h1 : ∀ c ∈ l1, c ≠ ':') :
    pagesScan (l1 ++ l2) = pagesScan l2 := by
  induction l1 with
  | nil => rfl
  | cons a r ih =>
    show pagesScan (a :: (r ++ l2)) = pagesScan l2
    simp only [pagesScan]
    rw [if_neg (h1 a (by simp))]
    exact ih fun c hc => h1 c (List.mem_cons_of_mem _ hc)

/-- One non-matching step of the marker scan. -/
theorem markerScanGo_step (pat : List Char) (cont : List Char → Option (List Char))
    (acc : List Char) (c : Char) (rs : List Char)
    (hm : listStartsWith pat (c :: rs) = false) (hc : c ≠ '\n') :
    markerScanGo pat cont acc (c :: rs) = markerScanGo pat cont (c :: acc) rs := by
  simp only [markerScanGo]
  rw [if_neg (by simp [hm]), if_neg hc]

/-- The marker scan succeeds at a match position whose continuation holds. -/
theorem markerScanGo_found (pat : List Char) (cont : List Char → Option (List Char))
    (acc : List Char) (c : Char) (rs t : List Char)
    (hm : listStartsWith pat (c :: rs) = true) (hacc : acc ≠ [])
    (ht : cont ((c :: rs).drop pat.length) = some t) :
    markerScanGo pat cont acc (c :: rs) = some (acc.reverse, t) := by
  simp only [markerScanGo]
  rw [if_pos ⟨hm, hacc⟩, ht]

/-- One non-matching step of the author-period scan. -/
theorem preTitleGo_step (acc : List Char) (c : Char) (rs : List Char)
    (hc : c ≠ '\n') (h2 : ¬ (c = '.' ∧ acc ≠ [])) :
    preTitleGo acc (c :: rs) = preTitleGo (c :: acc) rs := by
  simp only [preTitleGo]
  rw [if_neg hc, if_neg h2]

/-- The author-period scan succeeds at a period whose rest-pattern holds. -/
theorem preTitleGo_found (acc : List Char) (c : Char) (rs rest : List Char)
    (hc : c ≠ '\n') (h2 : c = '.' ∧ acc ≠ [])
    (hrm : restMatch rs = some rest) :
    preTitleGo acc (c :: rs) = some (acc.reverse, rest) := by
  simp only [preTitleGo]
  rw [if_neg hc, if_pos h2, hrm]

theorem tmCore_all {u : List Char} (hne : u ≠ []) (hnl : ∀ c ∈ u, c ≠ '\n') :
    tmCore u = some u := by
  simp only [tmCore]
  rw [takeWhile_all fun c hc => by simp [hnl c hc]]
  rw [if_pos hne]

theorem rmCore_all {u : List Char} (hne : u ≠ []) (hnl : ∀ c ∈ u, c ≠ '\n') :
    rmCore u = some u := by
  simp only [rmCore]
  rw [takeWhile_all fun c hc => by simp [hnl c hc]]
  rw [if_pos ⟨hne, Or.inl (List.drop_length u)⟩]

theorem tmGo_one {u X : List Char} (h : tmCore (u.drop 1) = some X) :
    tmGo u 1 = some X := by
  show tmGo u (0 + 1) = some X
  simp only [tmGo, Nat.zero_add]
  rw [h]

theorem rmGo_one {u X : List Char} (h : rmCore (u.drop 1) = some X) :
    rmGo u 1 = some X := by
  show rmGo u (0 + 1) = some X
  simp only [rmGo, Nat.zero_add]
  rw [h]

/-- `\s*(?P<tail>.+)` after exactly one space before clean text. -/
theorem tailMatch_eval {x : Char} {xs : List Char}
    (hx : isSpaceC x = false) (hnl : ∀ c ∈ x :: xs, c ≠ '\n') :
    tailMatch (' ' :: x :: xs) = some (x :: xs) := by
  have h0 : (x :: xs).takeWhile isSpaceC = [] := by
    rw [List.takeWhile_cons, hx]; simp
  have h1 : (' ' :: x :: xs).takeWhile isSpaceC = [' '] := by
    rw [List.takeWhile_cons, if_pos (by decide), h0]
  unfold tailMatch
  rw [h1]
  exact tmGo_one (tmCore_all (by simp) hnl)

/-- `\s*(?P<rest>.+)$` after exactly one space before clean text. -/
theorem restMatch_eval {x : Char} {xs : List Char}
    (hx : isSpaceC x = false) (hnl : ∀ c ∈ x :: xs, c ≠ '\n') :
    restMatch (' ' :: x :: xs) = some (x :: xs) := by
  have h0 : (x :: xs).takeWhile isSpaceC = [] := by
    rw [List.takeWhile_cons, hx]; simp
  have h1 : (' ' :: x :: xs).takeWhile isSpaceC = [' '] := by
    rw [List.takeWhile_cons, if_pos (by decide), h0]
  unfold restMatch
  rw [h1]
  exact rmGo_one (rmCore_all (by simp) hnl)

/-- The `[J]` continuation on a period, a space, then clean text. -/
theorem jCont_eval {x : Char} {xs : List Char}
    (hx : isSpaceC x = false) (hnl : ∀ c ∈ x :: xs, c ≠ '\n') :
    jCont ('.' :: ' ' :: x :: xs) = some (x :: xs) := by
  simp only [jCont, List.head?_cons, List.tail_cons]
  rw [if_pos trivial, tailMatch_eval hx hnl]

theorem isWordC_of_digit {c : Char} (h : isDigitC c = true) :
    isWordC c = true := by
  unfold isWordC
  rw [h]
  simp

/-- A digits-and-hyphens run is matched whole by the pages attempt when the
following character leaves the class and the word boundary holds. -/
theorem pagesAt_eval {p rest : List Char}
    (hpne : p ≠ []) (hp : ∀ c ∈ p, isDigitC c = true ∨ c = '-')
    (hpl : ∀ c, p.getLast? = some c → isDigitC c = true)
    (hr0 : ∀ c, rest.head? = some c → (isPagesChar c = false ∧ isWordC c = false)) :
    pagesAt (' ' :: (p ++ rest)) = some p := by
  have hcls : ∀ c ∈ p, isPagesChar c = true := by
    intro c hc
    rcases hp c hc with h | h
    · unfold isPagesChar; rw [h]; simp
    · rw [h]; decide
  have hnsp : ∀ c ∈ p, isSpaceC c = false := by
    intro c hc
    rcases hp c hc with h | h
    · exact isDigitC_not_space h
    · rw [h]; decide
  obtain ⟨p0, p', rfl⟩ : ∃ p0 p', p = p0 :: p' := by
    rcases p with _ | ⟨p0, p'⟩
    · exact absurd rfl hpne
    · exact ⟨p0, p', rfl⟩
  have hdw : (' ' :: ((p0 :: p') ++ rest)).dropWhile isSpaceC =
      (p0 :: p') ++ rest := by
    rw [List.dropWhile_cons, if_pos (by decide), List.cons_append,
      dropWhile_cons_neg (by simp [hnsp p0 (by simp)]), ← List.cons_append]
  have hrun : ((p0 :: p') ++ rest).takeWhile isPagesChar = p0 :: p' := by
    rw [takeWhile_append_all hcls]
    rcases rest with _ | ⟨r0, rr⟩
    · simp
    · rw [List.takeWhile_cons, (hr0 r0 rfl).1]
      simp
  simp only [pagesAt]
  rw [hdw, hrun, List.drop_left]
  obtain ⟨pl, rev', hrev⟩ : ∃ pl rev', (p0 :: p').reverse = pl :: rev' := by
    rcases hx : (p0 :: p').reverse with _ | ⟨pl, rev'⟩
    · exact absurd (List.reverse_eq_nil_iff.mp hx) (by simp)
    · exact ⟨pl, rev', rfl⟩
  have hlast : (p0 :: p').getLast? = some pl := by
    rw [← List.head?_reverse, hrev]; rfl
  have hwl : isWordC pl = true := isWordC_of_digit (hpl pl hlast)
  rw [hrev]
  have hbd : boundaryOk pl rest.head? = true := by
    rcases rest with _ | ⟨r0, rr⟩
    · show isWordC pl = true
      exact hwl
    · show (isWordC pl != isWordC r0) = true
      rw [hwl, (hr0 r0 rfl).2]
      rfl
  simp only [pickRunRev]
  rw [hbd]
  simp only [if_true]
  rw [← hrev, List.reverse_reverse]

/-- The anchored journal/year pattern on a clean journal name, a comma, one
space, four digits, then a colon-headed remainder. -/
theorem jMain_eval {j y z : List Char}
    (hjne : j ≠ []) (hjc : ∀ c ∈ j, c ≠ ',' ∧ c ≠ '.')
    (hylen : y.length = 4) (hyd : ∀ c ∈ y, isDigitC c = true)
    (hz : z.head? = some ':') :
    jMain (j ++ ',' :: ' ' :: (y ++ z)) = some (j, (digitsVal y : Int), none) := by
  have h1 : (j ++ ',' :: ' ' :: (y ++ z)).takeWhile
      (fun c => c ≠ ',' ∧ c ≠ '.') = j := by
    rw [takeWhile_append_all (fun c hc => by simpa using hjc c hc)]
    rw [List.takeWhile_cons]
    simp
  obtain ⟨y0, y', rfl⟩ : ∃ y0 y', y = y0 :: y' := by
    rcases y with _ | ⟨y0, y'⟩
    · simp at hylen
    · exact ⟨y0, y', rfl⟩
  have hw : (' ' :: ((y0 :: y') ++ z)).dropWhile isSpaceC = (y0 :: y') ++ z := by
    rw [List.dropWhile_cons, if_pos (by decide), List.cons_append,
      dropWhile_cons_neg (by simp [isDigitC_not_space (hyd y0 (by simp))]),
      ← List.cons_append]
  simp only [jMain]
  rw [h1, if_neg hjne, List.drop_left]
  show (if (',' : Char) = ',' then _ else none) = _
  rw [if_pos rfl]
  show (let w := (' ' :: ((y0 :: y') ++ z)).dropWhile isSpaceC
        let dd := w.take 4
        if dd.length = 4 ∧ dd.all isDigitC then
          some (j, (digitsVal dd : Int), optVolissue (w.drop 4))
        else none) = _
  rw [hw]
  simp only [List.take_left' hylen, List.drop_left' hylen]
  rw [if_pos ⟨hylen, List.all_eq_true.mpr fun c hc => hyd c hc⟩]
  obtain ⟨z0, z', rfl⟩ : ∃ z', z = ':' :: z' := by
    rcases z with _ | ⟨z0, z'⟩
    · exact absurd hz (by simp)
    · exact ⟨z', by injection hz with h; rw [h]⟩
  simp only [optVolissue]
  rw [if_neg (by decide)]

/-- `doiScan` at the `DOI: ` label captures the whole space-free token. -/
theorem doiScan_label {d : List Char} (hdne : d ≠ [])
    (hd : ∀ c ∈ d, isSpaceC c = false) :
    doiScan ('D' :: 'O' :: 'I' :: ':' :: ' ' :: d) = some d := by
  obtain ⟨d0, d', rfl⟩ : ∃ d0 d', d = d0 :: d' := by
    rcases d with _ | ⟨d0, d'⟩
    · exact absurd rfl hdne
    · exact ⟨d0, d', rfl⟩
  simp only [doiScan]
  rw [if_pos (by rfl)]
  have hdrop : (('D' :: 'O' :: 'I' :: ':' :: ' ' :: d0 :: d').drop 4).dropWhile
      isSpaceC = d0 :: d' := by
    show (' ' :: d0 :: d').dropWhile isSpaceC = d0 :: d'
    rw [List.dropWhile_cons, if_pos (by decide),
      dropWhile_cons_neg (by simp [hd d0 (by simp)])]
  rw [hdrop]
  rw [takeWhile_all (fun c hc => by simp [hd c hc])]
  rw [if_pos (by simp)]

/-- `rstrip('.')` is the identity when the last character is not a period. -/
theorem rstripBy_dot_noop {d : List Char} (hdne : d ≠ [])
    (hdl : ∀ c, d.getLast? = some c → c ≠ '.') :
    rstripBy (· = '.') d = d := by
  obtain ⟨d', dl, rfl⟩ : ∃ d' dl, d = d' ++ [dl] := by
    rcases List.eq_nil_or_concat d with h | ⟨d', a, h⟩
    · exact absurd h hdne
    · exact ⟨d', a, by simpa [List.concat_eq_append] using h⟩
  apply rstripBy_concat_neg
  have h1 := hdl dl (List.getLast?_concat d')
  simp [h1]

/-- Assembly of the `[J]` branch from the results of its scrutinee scans. -/
theorem jBranch_eval {authors : List Author} {rest tl ttl pg doi0 j : List Char}
    {yi : Int}
    (hms : markerScanGo "[J]".data jCont [] rest = some (ttl, tl))
    (hjm : jMain tl = some (j, yi, none))
    (hdoi : doiScan tl = some doi0)
    (hdstrip : rstripBy (· = '.') doi0 = doi0)
    (hpg : pagesScan tl = some pg)
    (hjs : pyStrip j = j) (hjne : j ≠ []) (hts : pyStrip ttl = ttl) :
    jBranch authors rest = .ok (.journal ⟨⟨ttl⟩, authors, some yi, "zh", ⟨j⟩,
      none, none, some ⟨pg⟩, some ⟨doi0⟩⟩) := by
  simp only [jBranch]
  rw [hms]
  simp only [hjm, hdoi, hpg, hjs, hts, Option.map_some', Option.map_none',
    hdstrip]
  rw [if_neg hjne]

/-- Membership in the synthesized `[J]` tail splits into the four symbolic
segments and the literal separator characters. -/
theorem mem_c7_tail {j y p d : List Char} {c : Char}
    (hc : c ∈ j ++ ',' :: ' ' :: (y ++ ':' :: ' ' ::
      (p ++ '.' :: ' ' :: 'D' :: 'O' :: 'I' :: ':' :: ' ' :: d))) :
    c ∈ j ∨ c ∈ y ∨ c ∈ p ∨ c ∈ d ∨
    c = ',' ∨ c = ' ' ∨ c = ':' ∨ c = '.' ∨ c = 'D' ∨ c = 'O' ∨ c = 'I' := by
  simp only [List.mem_append, List.mem_cons] at hc
  tauto

/-- `parse_reference` dispatch to the `[J]` branch, abstracted over the raw
character list. -/
theorem parse_reference_marker_J {S A R : List Char}
    (hbt : listStartsWith ['@'] (pyLstrip S) = false)
    (hstrip : pyStrip S = S)
    (hfm : findMarker S = some Marker.J)
    (hpt : preTitle S = some (A, R)) :
    parse_reference ⟨S⟩ = jBranch (_split_authors A) R := by
  simp only [parse_reference, hbt, Bool.false_eq_true, if_false, hstrip, hfm,
    hpt]

/-- C7 (amended): on a `[J]` reference whose tail is a clean journal name, a
comma, a four-digit year, a colon-led pages run and a `DOI:`-labelled token,
the journal is the text before the first comma, the pages are the token after
the first (not last) colon, the DOI is captured case-insensitively after the
label, and `parse_reference` returns exactly the corresponding entry. -/
theorem c7_journal_tail_grammar (j y p d : List Char)
    (hjne : j ≠ [])
    (hjc : ∀ c ∈ j, c ≠ ',' ∧ c ≠ '.' ∧ c ≠ ':' ∧ c ≠ '\n')
    (hjs : pyStrip j = j)
    (hylen : y.length = 4)
    (hyd : ∀ c ∈ y, isDigitC c = true)
    (hpne : p ≠ [])
    (hpc : ∀ c ∈ p, isDigitC c = true ∨ c = '-')
    (hpl : ∀ c, p.getLast? = some c → isDigitC c = true)
    (hdne : d ≠ [])
    (hdc : ∀ c ∈ d, isSpaceC c = false)
    (hdl : ∀ c, d.getLast? = some c → c ≠ '.') :
    jMain (j ++ ',' :: ' ' :: (y ++ ':' :: ' ' ::
        (p ++ '.' :: ' ' :: 'D' :: 'O' :: 'I' :: ':' :: ' ' :: d))) =
      some (j, (digitsVal y : Int), none) ∧
    pagesScan (j ++ ',' :: ' ' :: (y ++ ':' :: ' ' ::
        (p ++ '.' :: ' ' :: 'D' :: 'O' :: 'I' :: ':' :: ' ' :: d))) = some p ∧
    doiScan (j ++ ',' :: ' ' :: (y ++ ':' :: ' ' ::
        (p ++ '.' :: ' ' :: 'D' :: 'O' :: 'I' :: ':' :: ' ' :: d))) = some d ∧
    parse_reference ⟨"Liu J. Title[J]. ".data ++ (j ++ ',' :: ' ' ::
        (y ++ ':' :: ' ' ::
          (p ++ '.' :: ' ' :: 'D' :: 'O' :: 'I' :: ':' :: ' ' :: d)))⟩ =
      .ok (.journal ⟨"Title", [⟨"Liu J", none, false⟩],
        some (digitsVal y : Int), "zh", ⟨j⟩, none, none, some ⟨p⟩, some ⟨d⟩⟩) := by
  obtain ⟨j0, j', rfl⟩ : ∃ j0 j', j = j0 :: j' := by
    rcases j with _ | ⟨j0, j'⟩
    · exact absurd rfl hjne
    · exact ⟨j0, j', rfl⟩
  obtain ⟨y0, y', hy⟩ : ∃ y0 y', y = y0 :: y' := by
    rcases y with _ | ⟨y0, y'⟩
    · simp at hylen
    · exact ⟨y0, y', rfl⟩
  -- no character of the tail is a newline
  have htl_nl : ∀ c ∈ (j0 :: j') ++ ',' :: ' ' :: (y ++ ':' :: ' ' ::
      (p ++ '.' :: ' ' :: 'D' :: 'O' :: 'I' :: ':' :: ' ' :: d)), c ≠ '\n' := by
    intro c hc
    rcases mem_c7_tail hc with h | h | h | h | h | h | h | h | h | h | h
    · exact (hjc c h).2.2.2
    · exact isDigitC_ne (hyd c h) (by decide)
    · rcases hpc c h with h2 | h2
      · exact isDigitC_ne h2 (by decide)
      · rw [h2]; decide
    · intro he
      have h2 := hdc c h
      rw [he] at h2
      exact absurd h2 (by decide)
    all_goals rw [h]; decide
  -- part 1: the anchored journal/year match
  have hjm : jMain ((j0 :: j') ++ ',' :: ' ' :: (y ++ ':' :: ' ' ::
      (p ++ '.' :: ' ' :: 'D' :: 'O' :: 'I' :: ':' :: ' ' :: d))) =
      some ((j0 :: j'), (digitsVal y : Int), none) :=
    jMain_eval hjne (fun c hc => ⟨(hjc c hc).1, (hjc c hc).2.1⟩) hylen hyd rfl
  -- part 2: pages from the first colon
  have hpg : pagesScan ((j0 :: j') ++ ',' :: ' ' :: (y ++ ':' :: ' ' ::
      (p ++ '.' :: ' ' :: 'D' :: 'O' :: 'I' :: ':' :: ' ' :: d))) = some p := by
    have hassoc : (j0 :: j') ++ ',' :: ' ' :: (y ++ ':' :: ' ' ::
        (p ++ '.' :: ' ' :: 'D' :: 'O' :: 'I' :: ':' :: ' ' :: d)) =
        ((j0 :: j') ++ ',' :: ' ' :: y) ++ ':' :: ' ' ::
        (p ++ '.' :: ' ' :: 'D' :: 'O' :: 'I' :: ':' :: ' ' :: d) := by
      simp [List.cons_append, List.append_assoc]
    have hskip : pagesScan (((j0 :: j') ++ ',' :: ' ' :: y) ++ ':' :: ' ' ::
        (p ++ '.' :: ' ' :: 'D' :: 'O' :: 'I' :: ':' :: ' ' :: d)) =
        pagesScan (':' :: ' ' ::
          (p ++ '.' :: ' ' :: 'D' :: 'O' :: 'I' :: ':' :: ' ' :: d)) := by
      apply pagesScan_append_nocolon
      intro c hc
      rcases List.mem_append.mp hc with h1 | h1
      · exact (hjc c h1).2.2.1
      · rcases List.mem_cons.mp h1 with h2 | h2
        · rw [h2]; decide
        · rcases List.mem_cons.mp h2 with h3 | h3
          · rw [h3]; decide
          · exact isDigitC_ne (hyd c h3) (by decide)
    rw [hassoc, hskip]
    simp only [pagesScan]
    rw [if_pos trivial]
    rw [pagesAt_eval hpne hpc hpl (by
      intro c hcc
      have hcd : c = '.' := by
        injection hcc with hh
        exact hh.symm
      rw [hcd]
      exact ⟨by decide, by decide⟩)]
  -- part 3: the DOI token after the case-insensitive label
  have hdoi : doiScan ((j0 :: j') ++ ',' :: ' ' :: (y ++ ':' :: ' ' ::
      (p ++ '.' :: ' ' :: 'D' :: 'O' :: 'I' :: ':' :: ' ' :: d))) = some d := by
    have hskip1 : doiScan ((j0 :: j') ++ ',' :: ' ' :: (y ++ ':' :: ' ' ::
        (p ++ '.' :: ' ' :: 'D' :: 'O' :: 'I' :: ':' :: ' ' :: d))) =
        doiScan (',' :: ' ' :: (y ++ ':' :: ' ' ::
          (p ++ '.' :: ' ' :: 'D' :: 'O' :: 'I' :: ':' :: ' ' :: d))) := by
      apply doiScan_append_nocolon (fun c hc => (hjc c hc).2.2.1)
      rw [hy]
      intro c hc
      have hc3 : c ∈ [',', ' ', y0] := hc
      simp only [List.mem_cons] at hc3
      rcases hc3 with h | h | h | h
      · rw [h]; decide
      · rw [h]; decide
      · rw [h]
        exact isDigitC_ne (hyd y0 (by rw [hy]; simp)) (by decide)
      · exact absurd h (List.not_mem_nil c)
    have hassoc2 : (',' :: ' ' :: (y ++ ':' :: ' ' ::
        (p ++ '.' :: ' ' :: 'D' :: 'O' :: 'I' :: ':' :: ' ' :: d))) =
        (',' :: ' ' :: (y ++ ':' :: ' ' :: (p ++ ['.', ' ']))) ++
        ('D' :: 'O' :: 'I' :: ':' :: ' ' :: d) := by
      simp [List.cons_append, List.append_assoc]
    have hskip2 : doiScan ((',' :: ' ' :: (y ++ ':' :: ' ' ::
        (p ++ ['.', ' ']))) ++ ('D' :: 'O' :: 'I' :: ':' :: ' ' :: d)) =
        doiScan ('D' :: 'O' :: 'I' :: ':' :: ' ' :: d) := by
      apply doiScan_append_nod
      intro c hc
      simp only [List.mem_append, List.mem_cons] at hc
      rcases hc with h | h | h | h | h | h | h | h | h
      · rw [h]; decide
      · rw [h]; decide
      · exact lowerChar_ne_d (isDigitC_ne (hyd c h) (by decide))
          (isDigitC_ne (hyd c h) (by decide))
      · rw [h]; decide
      · rw [h]; decide
      · rcases hpc c h with h2 | h2
        · exact lowerChar_ne_d (isDigitC_ne h2 (by decide))
            (isDigitC_ne h2 (by decide))
        · rw [h2]; decide
      · rw [h]; decide
      · rw [h]; decide
      · exact absurd h (List.not_mem_nil c)
    rw [hskip1, hassoc2, hskip2]
    exact doiScan_label hdne hdc
  refine ⟨hjm, hpg, hdoi, ?_⟩
  -- part 4: the end-to-end parse
  have hj0 : isSpaceC j0 = false := head_nonspace_of_pyStrip hjs
  have hrm : restMatch (' ' :: ("Title[J]. ".data ++ ((j0 :: j') ++ ',' :: ' ' ::
      (y ++ ':' :: ' ' ::
        (p ++ '.' :: ' ' :: 'D' :: 'O' :: 'I' :: ':' :: ' ' :: d))))) =
      some ("Title[J]. ".data ++ ((j0 :: j') ++ ',' :: ' ' :: (y ++ ':' :: ' ' ::
        (p ++ '.' :: ' ' :: 'D' :: 'O' :: 'I' :: ':' :: ' ' :: d)))) := by
    apply restMatch_eval (by decide)
    intro c hc
    have hc2 : c ∈ "Title[J]. ".data ++ ((j0 :: j') ++ ',' :: ' ' ::
        (y ++ ':' :: ' ' ::
          (p ++ '.' :: ' ' :: 'D' :: 'O' :: 'I' :: ':' :: ' ' :: d))) := hc
    rcases List.mem_append.mp hc2 with h | h
    · exact (by decide : ∀ x ∈ "Title[J]. ".data, x ≠ '\n') c h
    · exact htl_nl c h
  have hpt : preTitle ("Liu J. Title[J]. ".data ++ ((j0 :: j') ++ ',' :: ' ' ::
      (y ++ ':' :: ' ' ::
        (p ++ '.' :: ' ' :: 'D' :: 'O' :: 'I' :: ':' :: ' ' :: d)))) =
      some ("Liu J".data, "Title[J]. ".data ++ ((j0 :: j') ++ ',' :: ' ' ::
        (y ++ ':' :: ' ' ::
          (p ++ '.' :: ' ' :: 'D' :: 'O' :: 'I' :: ':' :: ' ' :: d)))) := by
    show preTitleGo [] ('L' :: 'i' :: 'u' :: ' ' :: 'J' :: '.' :: ' ' ::
      ("Title[J]. ".data ++ ((j0 :: j') ++ ',' :: ' ' :: (y ++ ':' :: ' ' ::
        (p ++ '.' :: ' ' :: 'D' :: 'O' :: 'I' :: ':' :: ' ' :: d))))) = _
    rw [preTitleGo_step [] 'L' _ (by decide) (by decide)]
    rw [preTitleGo_step ['L'] 'i' _ (by decide) (by decide)]
    rw [preTitleGo_step ['i', 'L'] 'u' _ (by decide) (by decide)]
    rw [preTitleGo_step ['u', 'i', 'L'] ' ' _ (by decide) (by decide)]
    rw [preTitleGo_step [' ', 'u', 'i', 'L'] 'J' _ (by decide) (by decide)]
    exact preTitleGo_found ['J', ' ', 'u', 'i', 'L'] '.' _ _ (by decide)
      ⟨rfl, by decide⟩ hrm
  have hcont : jCont ('.' :: ' ' :: (j0 :: (j' ++ ',' :: ' ' :: (y ++ ':' :: ' ' ::
      (p ++ '.' :: ' ' :: 'D' :: 'O' :: 'I' :: ':' :: ' ' :: d))))) =
      some (j0 :: (j' ++ ',' :: ' ' :: (y ++ ':' :: ' ' ::
        (p ++ '.' :: ' ' :: 'D' :: 'O' :: 'I' :: ':' :: ' ' :: d)))) :=
    jCont_eval hj0 htl_nl
  have hms : markerScanGo "[J]".data jCont []
      ("Title[J]. ".data ++ ((j0 :: j') ++ ',' :: ' ' :: (y ++ ':' :: ' ' ::
        (p ++ '.' :: ' ' :: 'D' :: 'O' :: 'I' :: ':' :: ' ' :: d)))) =
      some ("Title".data, (j0 :: j') ++ ',' :: ' ' :: (y ++ ':' :: ' ' ::
        (p ++ '.' :: ' ' :: 'D' :: 'O' :: 'I' :: ':' :: ' ' :: d))) := by
    show markerScanGo "[J]".data jCont []
      ('T' :: 'i' :: 't' :: 'l' :: 'e' :: '[' :: 'J' :: ']' :: '.' :: ' ' ::
        ((j0 :: j') ++ ',' :: ' ' :: (y ++ ':' :: ' ' ::
          (p ++ '.' :: ' ' :: 'D' :: 'O' :: 'I' :: ':' :: ' ' :: d)))) = _
    rw [markerScanGo_step _ _ [] 'T' _ (by rfl) (by decide)]
    rw [markerScanGo_step _ _ ['T'] 'i' _ (by rfl) (by decide)]
    rw [markerScanGo_step _ _ ['i', 'T'] 't' _ (by rfl) (by decide)]
    rw [markerScanGo_step _ _ ['t', 'i', 'T'] 'l' _ (by rfl) (by decide)]
    rw [markerScanGo_step _ _ ['l', 't', 'i', 'T'] 'e' _ (by rfl) (by decide)]
    exact markerScanGo_found _ _ ['e', 'l', 't', 'i', 'T'] '[' _ _ (by rfl)
      (by decide) hcont
  have hbt : listStartsWith ['@'] (pyLstrip ("Liu J. Title[J]. ".data ++
      ((j0 :: j') ++ ',' :: ' ' :: (y ++ ':' :: ' ' ::
        (p ++ '.' :: ' ' :: 'D' :: 'O' :: 'I' :: ':' :: ' ' :: d))))) = false := rfl
  have hfm : findMarker ("Liu J. Title[J]. ".data ++ ((j0 :: j') ++ ',' :: ' ' ::
      (y ++ ':' :: ' ' ::
        (p ++ '.' :: ' ' :: 'D' :: 'O' :: 'I' :: ':' :: ' ' :: d)))) =
      some Marker.J := rfl
  obtain ⟨d', dl, hdeq⟩ : ∃ d' dl, d = d' ++ [dl] := by
    rcases List.eq_nil_or_concat d with h | ⟨d', a, h⟩
    · exact absurd h hdne
    · exact ⟨d', a, by simpa [List.concat_eq_append] using h⟩
  have hdl_mem : dl ∈ d := by
    rw [hdeq]
    exact List.mem_append_right _ (by simp)
  have hstrip : pyStrip ("Liu J. Title[J]. ".data ++ ((j0 :: j') ++ ',' :: ' ' ::
      (y ++ ':' :: ' ' ::
        (p ++ '.' :: ' ' :: 'D' :: 'O' :: 'I' :: ':' :: ' ' :: d)))) =
      "Liu J. Title[J]. ".data ++ ((j0 :: j') ++ ',' :: ' ' :: (y ++ ':' :: ' ' ::
        (p ++ '.' :: ' ' :: 'D' :: 'O' :: 'I' :: ':' :: ' ' :: d))) := by
    have hS2 : "Liu J. Title[J]. ".data ++ ((j0 :: j') ++ ',' :: ' ' ::
        (y ++ ':' :: ' ' ::
          (p ++ '.' :: ' ' :: 'D' :: 'O' :: 'I' :: ':' :: ' ' :: d))) =
        ("Liu J. Title[J]. ".data ++ ((j0 :: j') ++ ',' :: ' ' ::
          (y ++ ':' :: ' ' ::
            (p ++ '.' :: ' ' :: 'D' :: 'O' :: 'I' :: ':' :: ' ' :: d')))) ++
        [dl] := by
      rw [hdeq]
      simp [List.cons_append, List.append_assoc]
    have h1 : ("Liu J. Title[J]. ".data ++ ((j0 :: j') ++ ',' :: ' ' ::
        (y ++ ':' :: ' ' ::
          (p ++ '.' :: ' ' :: 'D' :: 'O' :: 'I' :: ':' :: ' ' :: d)))).dropWhile
        isSpaceC =
        "Liu J. Title[J]. ".data ++ ((j0 :: j') ++ ',' :: ' ' ::
          (y ++ ':' :: ' ' ::
            (p ++ '.' :: ' ' :: 'D' :: 'O' :: 'I' :: ':' :: ' ' :: d))) := by
      show ('L' :: ("iu J. Title[J]. ".data ++ ((j0 :: j') ++ ',' :: ' ' ::
        (y ++ ':' :: ' ' ::
          (p ++ '.' :: ' ' :: 'D' :: 'O' :: 'I' :: ':' :: ' ' :: d))))).dropWhile
        isSpaceC = _
      exact dropWhile_cons_neg (by decide)
    unfold pyStrip
    rw [h1, hS2, rstripBy_concat_neg (by simp [hdc dl hdl_mem]), ← hS2]
  have hsa : _split_authors "Liu J".data = [⟨"Liu J", none, false⟩] := rfl
  rw [parse_reference_marker_J hbt hstrip hfm hpt, hsa]
  exact jBranch_eval hms hjm hdoi (rstripBy_dot_noop hdne hdl) hpg hjs hjne rfl

/-- Witness: the C7 schema at the concrete reference
`Liu J. Title[J]. Nature, 2020: 12-15. DOI: 10.1000/xyz`. -/
theorem c7_journal_tail_grammar_witness :
    parse_reference "Liu J. Title[J]. Nature, 2020: 12-15. DOI: 10.1000/xyz" =
      .ok (.journal ⟨"Title", [⟨"Liu J", none, false⟩], some 2020, "zh",
        "Nature", none, none, some "12-15", some "10.1000/xyz"⟩) :=
  (c7_journal_tail_grammar "Nature".data "2020".data "12-15".data
    "10.1000/xyz".data
    (by decide) (by decide) (by decide) (by decide) (by decide) (by decide)
    (by decide)
    (by intro c hc; injection hc with h; rw [← h]; decide)
    (by decide) (by decide)
    (by intro c hc; injection hc with h; rw [← h]; decide)).2.2.2
